import Mathlib

/-!
Verification of the resilient lottery-result extraction engine
(Beast-reader-results).  The repository is a sequence of near-duplicate
server revisions; the definitions below are shallow embeddings of the
digit extractors, the date resolver, the cross-URL fallback loop and the
pair aggregator, translated from `src/server/index.js`,
`src/server/Run-Server.bat` (revisions 1-3 of the embedded index.js) and
`src/unnamed/part_000` / `src/unnamed/part_001`.

Text is modelled as `List Char`; JavaScript regular-expression searches
are modelled by explicit left-to-right scans that follow the concrete
regex used at each site (greedy repetition, ordered alternation,
word-boundary `\b`, lookarounds), as documented per definition.
Fallible APIs are modelled with `Option`/`Except`, calendar timestamps
(dayjs values compared with `valueOf`) with `Nat`.
-/

namespace Beast

/-- JavaScript word character as used by `\b` and `\w`: ASCII letter,
digit, or underscore. -/
def wordChar (c : Char) : Bool :=
  c.isAlpha || c.isDigit || c = '_'

/-- If `pat` is a literal prefix of `t`, return the rest of `t`. -/
def litAt : List Char → List Char → Option (List Char)
  | [], t => some t
  | _ :: _, [] => none
  | p :: ps, c :: cs => if p = c then litAt ps cs else none

/-- Literal substring test (models `String.prototype.includes` and an
unanchored regex literal): does `pat` occur contiguously in `t`? -/
def containsLit (pat : List Char) : List Char → Bool
  | [] => (litAt pat []).isSome
  | c :: rest => (litAt pat (c :: rest)).isSome || containsLit pat (rest)

/-- One-pass worker for `.replace(/\s+/g, ' ')`: the flag records
whether we are inside a whitespace run that has already emitted its
blank. -/
def collapseWsAux : Bool → List Char → List Char
  | _, [] => []
  | inWs, c :: rest =>
    if c.isWhitespace then
      if inWs then collapseWsAux true rest
      else ' ' :: collapseWsAux true rest
    else c :: collapseWsAux false rest

/-- Collapse every maximal run of whitespace to a single blank: models
`.replace(/\s+/g, ' ')` used by every revision's text cleaner. -/
def collapseWs (l : List Char) : List Char :=
  collapseWsAux false l

/-- Drop leading and trailing blanks (`String.prototype.trim`). -/
def trimBlanks (l : List Char) : List Char :=
  ((l.dropWhile Char.isWhitespace).reverse.dropWhile Char.isWhitespace).reverse

/-- Digits of a character list, most significant first, as a number
(models `parseInt` on an all-digit token). -/
def digitsToNat (l : List Char) : Nat :=
  l.foldl (fun acc c => 10 * acc + (c.toNat - 48)) 0

/-! ## Structural digit strategy

`Run-Server.bat`, revision 2 (`pickConsecutiveSingleDigitNodes`, lines
44-56, identical at lines 319-328): the container's `span, div, li, p`
descendants are flattened to their trimmed texts in document order; each
text that is exactly one decimal digit becomes that digit, anything else
becomes `null`; the first window of `n` consecutive digits is joined.
We take the list of leaf texts (document order) as the input. -/

/-- `t && /^[0-9]$/.test(t) ? t : null` on a trimmed node text. -/
def singleDigitText (t : String) : Option Char :=
  match trimBlanks t.toList with
  | [c] => if c.isDigit then some c else none
  | _ => none

/-- Take the first `n` entries if they are all digits
(the `slice(i, i+n).every(x => x !== null)` window test, fused with the
`join('')`). -/
def takeDigits : List (Option Char) → Nat → Option (List Char)
  | _, 0 => some []
  | [], _ + 1 => none
  | none :: _, _ + 1 => none
  | some c :: rest, n + 1 => (takeDigits rest n).map (c :: ·)

/-- The scan `for (let i = 0; i <= nodes.length - n; i++) ...`: first
window of `n` consecutive digit entries, in order. -/
def firstDigitWindow (n : Nat) : List (Option Char) → Option (List Char)
  | [] => takeDigits [] n
  | v :: rest =>
    match takeDigits (v :: rest) n with
    | some w => some w
    | none => firstDigitWindow n rest

/-- `pickConsecutiveSingleDigitNodes` (Run-Server.bat lines 44-56 /
319-328), over the container's leaf texts in document order. -/
def pickConsecutiveSingleDigitNodes (texts : List String) (n : Nat) :
    Option String :=
  (firstDigitWindow n (texts.map singleDigitText)).map (fun w => String.mk w)

/-- The structural block of `extractByLabel` in `src/server/index.js`
(lines 233-243): `spans` is the container's `span, div, b, strong`
descendants filtered to single-digit texts; if at least `n` survive, the
first `n` of them are concatenated (no adjacency requirement). -/
def spanDigitsIdx (texts : List String) (n : Nat) : Option String :=
  let spans := texts.filterMap singleDigitText
  if n ≤ spans.length then some (String.mk (spans.take n)) else none

/-! ## Textual digit strategy, index.js revision

`src/server/index.js` lines 172-186:
`cleanTextBlocks` collapses whitespace, deletes every `$` and `,`
character (`.replace(/[$,]/g, '')`), and trims; then
`pickNDigitsFromTextSafe` returns the first match of
`(?<!\d)\d{n}(?!\d)`. -/

/-- `cleanTextBlocks` of index.js lines 172-177. -/
def cleanTextBlocksIdx (l : List Char) : List Char :=
  trimBlanks ((collapseWs l).filter (fun c => !(c = '$' || c = ',')))

/-- Exactly `n` digit characters starting here, with no digit following
(the `\d{n}(?!\d)` part). -/
def takeDigitRun : Nat → List Char → Option (List Char)
  | 0, [] => some []
  | 0, c :: _ => if c.isDigit then none else some []
  | _ + 1, [] => none
  | n + 1, c :: rest =>
    if c.isDigit then (takeDigitRun n rest).map (c :: ·) else none

/-- Left-to-right scan for `(?<!\d)\d{n}(?!\d)`: the boolean carries
whether the previous character was a digit (the lookbehind). -/
def scanTight (n : Nat) : Bool → List Char → Option (List Char)
  | prevD, [] => if prevD then none else takeDigitRun n []
  | prevD, c :: rest =>
    match if prevD then none else takeDigitRun n (c :: rest) with
    | some w => some w
    | none => scanTight n c.isDigit rest

/-- `pickNDigitsFromTextSafe` of index.js lines 181-186. -/
def pickNDigitsTextIdx (t : String) (n : Nat) : Option String :=
  (scanTight n false (cleanTextBlocksIdx t.toList)).map (fun w => String.mk w)

/-! ## Textual digit strategy, Run-Server.bat revision 3

Lines 307-314 (`cleanTextBlocks`) and 330-340
(`pickNDigitsFromTextSafe`).  The cleaner collapses whitespace, then
blanks out money `\$[0-9][0-9,.]*`, clock times
`\b\d{1,2}:\d{2}(\s?[ap]m)?\b`, and prize boilerplate
`\b(prize|top prize|payout|how to|odds|draws? at)\b[^.!?\n]*` (global,
case-insensitive).  The extractor then tries the loose pattern
`(?:\d\D*){n}` first, collapses the match to its first `n` digits, and
only afterwards tries the plain `\d{n}`. -/

/-- Generic one-pass global regex replace-by-blank.  `matchLen prevW t`
returns the length of the (deterministic) match starting at the head of
`t`, given whether the previous character was a word character (for a
leading `\b`).  On a match the scanner emits one blank and skips the
matched characters (the skip counter), exactly like `String.replace`
with a global regex, which resumes scanning right after the match. -/
def stripWith (matchLen : Bool → List Char → Option Nat) :
    Nat → Bool → List Char → List Char
  | _, _, [] => []
  | s + 1, _, ch :: rest => stripWith matchLen s (wordChar ch) rest
  | 0, prevW, c :: rest =>
    match matchLen prevW (c :: rest) with
    | some k => ' ' :: stripWith matchLen (k - 1) (wordChar c) rest
    | none => c :: stripWith matchLen 0 (wordChar c) rest

/-- Match length of `\$[0-9][0-9,.]*` at this position: a dollar sign,
one digit, then the greedy `[0-9,.]*` tail (no `\b`, so `prevW` is
ignored). -/
def moneyLen (_ : Bool) : List Char → Option Nat
  | '$' :: c :: rest =>
    if c.isDigit then
      some (2 + (rest.takeWhile
        (fun x => x.isDigit || x = ',' || x = '.')).length)
    else none
  | _ => none

/-- Global replace of `\$[0-9][0-9,.]*` by a blank
(`Run-Server.bat` line 310). -/
def stripMoney (l : List Char) : List Char :=
  stripWith moneyLen 0 false l

/-- The trailing `\b` of the clock-time pattern: succeed without
consuming when the next character is not a word character. -/
def timeBoundary : List Char → Option (List Char)
  | [] => some []
  | c :: rest => if wordChar c then none else some (c :: rest)

/-- The `[ap]m` part (case-insensitive) followed by the trailing `\b`. -/
def timeAp : List Char → Option (List Char)
  | a :: m :: r2 =>
    if (a.toLower = 'a' || a.toLower = 'p') && m.toLower = 'm' then
      timeBoundary r2
    else none
  | _ => none

/-- After `\d{1,2}:\d{2}` try the optional `(\s?[ap]m)?` (greedy) and
then require the trailing `\b`.  After whitespace collapsing the only
whitespace character is the blank, so `\s?` is an optional blank; when
the head is a blank the no-blank reading of `\s?` cannot start `[ap]m`,
so only the boundary fallback remains, as in the first branch. -/
def timeSuffix : List Char → Option (List Char)
  | [] => timeBoundary []
  | c :: r1 =>
    if c = ' ' then
      match timeAp r1 with
      | some r2 => some r2
      | none => timeBoundary (c :: r1)
    else
      match timeAp (c :: r1) with
      | some r2 => some r2
      | none => timeBoundary (c :: r1)

/-- The `:\d{2}` part followed by `timeSuffix`. -/
def timeColon : List Char → Option (List Char)
  | c :: d1 :: d2 :: r2 =>
    if c = ':' && d1.isDigit && d2.isDigit then timeSuffix r2 else none
  | _ => none

/-- Try to match `\d{1,2}:\d{2}(\s?[ap]m)?\b` here (the leading `\b` is
checked by the caller); greedy on the one-or-two leading digits.  (When
two digits are present the one-digit reading needs a colon in digit
position, so it can never rescue a failed two-digit reading.) -/
def timeAt (t : List Char) : Option (List Char) :=
  match t with
  | c1 :: c2 :: rest =>
    if c1.isDigit then
      if c2.isDigit then timeColon rest
      else timeColon (c2 :: rest)
    else none
  | _ => none

/-- Match length of `\b\d{1,2}:\d{2}(\s?[ap]m)?\b` at this position. -/
def timeLen (prevW : Bool) (t : List Char) : Option Nat :=
  if prevW then none
  else (timeAt t).map (fun r => t.length - r.length)

/-- Global replace of clock times `\b\d{1,2}:\d{2}(\s?[ap]m)?\b` by a
blank (`Run-Server.bat` line 311). -/
def stripTimes (l : List Char) : List Char :=
  stripWith timeLen 0 false l

/-- The prize-phrase keywords, lowercase, in the alternation order of
`\b(prize|top prize|payout|how to|odds|draws? at)\b`.  `draws? at` is
expanded to its two alternatives (greedy `s?` first). -/
def prizeWords : List (List Char) :=
  [('p' :: 'r' :: 'i' :: 'z' :: 'e' :: []),
   ('t' :: 'o' :: 'p' :: ' ' :: 'p' :: 'r' :: 'i' :: 'z' :: 'e' :: []),
   ('p' :: 'a' :: 'y' :: 'o' :: 'u' :: 't' :: []),
   ('h' :: 'o' :: 'w' :: ' ' :: 't' :: 'o' :: []),
   ('o' :: 'd' :: 'd' :: 's' :: []),
   ('d' :: 'r' :: 'a' :: 'w' :: 's' :: ' ' :: 'a' :: 't' :: []),
   ('d' :: 'r' :: 'a' :: 'w' :: ' ' :: 'a' :: 't' :: [])]

/-- Try each keyword at this position (case-insensitively): on a hit,
require the trailing `\b`, then consume `[^.!?\n]*` greedily. -/
def prizeTry (t : List Char) : List (List Char) → Option (List Char)
  | [] => none
  | w :: ws =>
    match litAt w (t.map Char.toLower) with
    | some _ =>
      let rest := t.drop w.length
      let bOk : Bool := match rest with
        | [] => true
        | c :: _ => !wordChar c
      if bOk then
        some (rest.dropWhile
          (fun c => !(c = '.' || c = '!' || c = '?' || c = '\n')))
      else prizeTry t ws
    | none => prizeTry t ws

/-- Match one prize phrase starting here; the leading `\b` is checked by
the caller. -/
def prizeAt (t : List Char) : Option (List Char) :=
  prizeTry t prizeWords

theorem litAtLen :
    ∀ pat t r : List Char, litAt pat t = some r →
      pat.length + r.length = t.length := by
  intro pat
  induction pat with
  | nil => intro t r h; simp [litAt] at h; simp [← h]
  | cons p ps ih =>
    intro t r h
    cases t with
    | nil => simp [litAt] at h
    | cons c cs =>
      by_cases hpc : p = c
      · simp only [litAt, hpc, if_pos] at h
        have := ih cs r h
        simp; omega
      · simp [litAt, hpc] at h

/-- Match length of
`\b(prize|top prize|payout|how to|odds|draws? at)\b[^.!?\n]*` at this
position. -/
def prizeLen (prevW : Bool) (t : List Char) : Option Nat :=
  if prevW then none
  else (prizeAt t).map (fun r => t.length - r.length)

/-- Global replace of prize boilerplate by a blank
(`Run-Server.bat` line 312). -/
def stripPrize (l : List Char) : List Char :=
  stripWith prizeLen 0 false l

/-- `cleanTextBlocks` of Run-Server.bat lines 307-314 (whitespace
collapse, then money, clock-time and prize-phrase removal; note that
this revision does **not** strip month-name date phrases). -/
def cleanTextBlocksRun (l : List Char) : List Char :=
  stripPrize (stripTimes (stripMoney (collapseWs l)))

/-- Greedy match of `(?:\d\D*){n}` starting exactly here: each group is
one digit followed by every non-digit up to the next digit. -/
def looseFrom : Nat → List Char → Option (List Char)
  | 0, _ => some []
  | _ + 1, [] => none
  | n + 1, c :: rest =>
    if c.isDigit then
      let nd := rest.takeWhile (fun x => !x.isDigit)
      (looseFrom n (rest.dropWhile (fun x => !x.isDigit))).map
        (fun w => c :: (nd ++ w))
    else none

/-- Leftmost match of `(?:\d\D*){n}`. -/
def scanLoose (n : Nat) : List Char → Option (List Char)
  | [] => looseFrom n []
  | c :: rest =>
    match looseFrom n (c :: rest) with
    | some w => some w
    | none => scanLoose n rest

/-- Exactly `n` digits starting here (plain `\d{n}`, no boundary). -/
def tightFrom : Nat → List Char → Option (List Char)
  | 0, _ => some []
  | _ + 1, [] => none
  | n + 1, c :: rest =>
    if c.isDigit then (tightFrom n rest).map (c :: ·) else none

/-- Leftmost match of plain `\d{n}`. -/
def scanPlain (n : Nat) : List Char → Option (List Char)
  | [] => tightFrom n []
  | c :: rest =>
    match tightFrom n (c :: rest) with
    | some w => some w
    | none => scanPlain n rest

/-- `pickNDigitsFromTextSafe` of Run-Server.bat lines 330-340: the loose
`(?:\d\D*){n}` match is tried FIRST, its digits collapsed and cut to
`n`; the plain `\d{n}` search runs only if that fails. -/
def pickNDigitsTextRun (t : String) (n : Nat) : Option String :=
  match scanLoose n (cleanTextBlocksRun t.toList) with
  | some w =>
    if ((w.filter Char.isDigit).take n).length = n then
      some (String.mk ((w.filter Char.isDigit).take n))
    else
      (scanPlain n (cleanTextBlocksRun t.toList)).map (fun w2 => String.mk w2)
  | none =>
    (scanPlain n (cleanTextBlocksRun t.toList)).map (fun w2 => String.mk w2)

/-! ## Date resolver

`parseDateFromText` (Run-Server.bat lines 277-305).  Priority order:
relative "today" words, then month-name dates, then numeric
slash dates.  The output keeps the parsed calendar fields; the
"today/tonight" branch, which returns the current instant, is a
distinguished marker. -/

/-- Result of the date resolver: either the current instant
(`dayjs.tz(Date.now(), ...)`) or a parsed year-month-day. -/
inductive DateOut where
  | nowMark : DateOut
  | ymd : Nat → Nat → Nat → DateOut
deriving DecidableEq, Repr

/-- The relative-date alternatives of
`\b(today|tonight|this (?:evening|afternoon|morning))\b/i`,
lowercase. -/
def todayWords : List (List Char) :=
  [('t' :: 'o' :: 'd' :: 'a' :: 'y' :: []),
   ('t' :: 'o' :: 'n' :: 'i' :: 'g' :: 'h' :: 't' :: []),
   ('t' :: 'h' :: 'i' :: 's' :: ' ' :: 'e' :: 'v' :: 'e' :: 'n' :: 'i' :: 'n' :: 'g' :: []),
   ('t' :: 'h' :: 'i' :: 's' :: ' ' :: 'a' :: 'f' :: 't' :: 'e' :: 'r' :: 'n' :: 'o' :: 'o' :: 'n' :: []),
   ('t' :: 'h' :: 'i' :: 's' :: ' ' :: 'm' :: 'o' :: 'r' :: 'n' :: 'i' :: 'n' :: 'g' :: [])]

/-- Does one of `pats` match at the head of `low`, followed by a word
boundary?  (The leading boundary is the caller's business.) -/
def anyLitHere (pats : List (List Char)) (low : List Char) : Bool :=
  pats.any (fun p =>
    match litAt p low with
    | some [] => true
    | some (c :: _) => !wordChar c
    | none => false)

/-- Word-boundary scan for a set of literal word alternatives: models
`re.test` for `\b(w1|w2|...)\b` on an already-lowercased text. -/
def scanWords (pats : List (List Char)) : Bool → List Char → Bool
  | prevW, [] => !prevW && anyLitHere pats []
  | prevW, c :: rest =>
    (!prevW && anyLitHere pats (c :: rest)) ||
      scanWords pats (wordChar c) rest

/-- Month-name alternatives of the regex
`(Jan(?:uary)?|Feb(?:ruary)?|...|Dec(?:ember)?)`, paired with the month
number; each month lists its token spellings in the regex's greedy
backtracking order (longest first).  In the source the month number is
recovered with `monthNames.findIndex(x => m1[1].toLowerCase().startsWith(x)) + 1`,
which yields exactly this pairing. -/
def monthToks : List (Nat × List (List Char)) :=
  [(1, [('j' :: 'a' :: 'n' :: 'u' :: 'a' :: 'r' :: 'y' :: []), ('j' :: 'a' :: 'n' :: [])]),
   (2, [('f' :: 'e' :: 'b' :: 'r' :: 'u' :: 'a' :: 'r' :: 'y' :: []), ('f' :: 'e' :: 'b' :: [])]),
   (3, [('m' :: 'a' :: 'r' :: 'c' :: 'h' :: []), ('m' :: 'a' :: 'r' :: [])]),
   (4, [('a' :: 'p' :: 'r' :: 'i' :: 'l' :: []), ('a' :: 'p' :: 'r' :: [])]),
   (5, [('m' :: 'a' :: 'y' :: [])]),
   (6, [('j' :: 'u' :: 'n' :: 'e' :: []), ('j' :: 'u' :: 'n' :: [])]),
   (7, [('j' :: 'u' :: 'l' :: 'y' :: []), ('j' :: 'u' :: 'l' :: [])]),
   (8, [('a' :: 'u' :: 'g' :: 'u' :: 's' :: 't' :: []), ('a' :: 'u' :: 'g' :: [])]),
   (9, [('s' :: 'e' :: 'p' :: 't' :: 'e' :: 'm' :: 'b' :: 'e' :: 'r' :: []),
        ('s' :: 'e' :: 'p' :: 't' :: []), ('s' :: 'e' :: 'p' :: [])]),
   (10, [('o' :: 'c' :: 't' :: 'o' :: 'b' :: 'e' :: 'r' :: []), ('o' :: 'c' :: 't' :: [])]),
   (11, [('n' :: 'o' :: 'v' :: 'e' :: 'm' :: 'b' :: 'e' :: 'r' :: []), ('n' :: 'o' :: 'v' :: [])]),
   (12, [('d' :: 'e' :: 'c' :: 'e' :: 'm' :: 'b' :: 'e' :: 'r' :: []), ('d' :: 'e' :: 'c' :: [])])]

/-- Greedy `\d{1,2}`: the digit characters taken and the rest. -/
def take12Digits : List Char → Option (List Char × List Char)
  | c1 :: c2 :: rest =>
    if c1.isDigit then
      if c2.isDigit then some ([c1, c2], rest)
      else some ([c1], c2 :: rest)
    else none
  | [c1] => if c1.isDigit then some ([c1], []) else none
  | [] => none

/-- Exactly four digits (`\d{4}`). -/
def take4Digits : List Char → Option (List Char × List Char)
  | c1 :: c2 :: c3 :: c4 :: rest =>
    if c1.isDigit && c2.isDigit && c3.isDigit && c4.isDigit then
      some ([c1, c2, c3, c4], rest)
    else none
  | _ => none

/-- After a month token: `\s+(\d{1,2})(?:,\s*(\d{4}))?`.  The input is
whitespace-collapsed, so `\s+` is one blank and `\s*` at most one. -/
def monthTail : List Char → Option (Nat × Option Nat)
  | ' ' :: rest =>
    match take12Digits rest with
    | some (dd, rest2) =>
      let yr : Option Nat :=
        match rest2 with
        | ',' :: r3 =>
          let r4 := if r3.head? = some ' ' then r3.tail else r3
          match take4Digits r4 with
          | some (yy, _) => some (digitsToNat yy)
          | none => none
        | _ => none
      some (digitsToNat dd, yr)
    | none => none
  | _ => none

/-- Try every month alternative (in regex order, greedy token order) at
this position; on a token hit the day/year tail must also match, else
the next token or month is tried (regex backtracking). -/
def monthAt (low : List Char) : Option (Nat × Nat × Option Nat) :=
  monthToks.foldr
    (fun mt acc =>
      match mt.2.foldr
        (fun tok acc2 =>
          match litAt tok low with
          | some rest =>
            match monthTail rest with
            | some (d, yr) => some (mt.1, d, yr)
            | none => acc2
          | none => acc2)
        none with
      | some r => some r
      | none => acc)
    none

/-- Left-to-right scan for the month-name date (the pattern starts with
`\b` via the word-character flag). -/
def scanMonth : Bool → List Char → Option (Nat × Nat × Option Nat)
  | prevW, [] => if prevW then none else monthAt []
  | prevW, c :: rest =>
    match if prevW then none else monthAt (c :: rest) with
    | some r => some r
    | none => scanMonth (wordChar c) rest

/-- `\b` after the numeric date: next character absent or not a word
character. -/
def numBoundary : List Char → Bool
  | [] => true
  | c :: _ => !wordChar c

/-- Greedy `\d{2,4}` candidates in backtracking order (4, 3, then 2
digits), each paired with the rest. -/
def year24Cands (t : List Char) : List (Nat × List Char) :=
  let ds := t.takeWhile Char.isDigit
  let cand := fun (k : Nat) =>
    if k ≤ ds.length then [(digitsToNat (ds.take k), t.drop k)] else []
  cand 4 ++ cand 3 ++ cand 2

/-- `(?:\/(\d{2,4}))?\b` after the day: greedily try the year (longest
first), checking the trailing boundary; fall back to no year. -/
def numYear (rest2 : List Char) : Option (Option Nat × List Char) :=
  match rest2 with
  | '/' :: r3 =>
    match (year24Cands r3).filter (fun yc => numBoundary yc.2) with
    | yc :: _ => some (some yc.1, yc.2)
    | [] => if numBoundary rest2 then some (none, rest2) else none
  | _ => if numBoundary rest2 then some (none, rest2) else none

/-- `\b(\d{1,2})\/(\d{1,2})(?:\/(\d{2,4}))?\b` at this position (the
leading `\b` is the caller's flag): month, day, optional year.  With
two leading digits the one-digit reading needs a slash in digit
position, so greedy `\d{1,2}` needs no backtracking; likewise for the
day, whose fallback readings are subsumed by `numYear`'s boundary
checks failing. -/
def numAt (t : List Char) : Option (Nat × Nat × Option Nat) :=
  match take12Digits t with
  | some (mm, rest1) =>
    match rest1 with
    | '/' :: rest1b =>
      match take12Digits rest1b with
      | some (dd, rest2) =>
        match numYear rest2 with
        | some (yr, _) => some (digitsToNat mm, digitsToNat dd, yr)
        | none =>
          match dd with
          | [d1, _] =>
            match numYear (dd.drop 1 ++ rest2) with
            | some (yr, _) => some (digitsToNat mm, digitsToNat [d1], yr)
            | none => none
          | _ => none
      | none => none
    | _ => none
  | none => none

/-- Left-to-right scan for the numeric slash date. -/
def scanNum : Bool → List Char → Option (Nat × Nat × Option Nat)
  | prevW, [] => if prevW then none else numAt []
  | prevW, c :: rest =>
    match if prevW then none else numAt (c :: rest) with
    | some r => some r
    | none => scanNum (wordChar c) rest

/-- `parseDateFromText` (Run-Server.bat lines 277-305).  `y` is the
current year (`dayjs.tz(Date.now(), 'America/New_York').year()`).
Note: the numeric form accepts only slashes, and applies the
`Y < 100 → 2000 + Y` century rule after defaulting a missing year to
`y`; the month form takes the year as given (four digits) or defaults
to `y`. -/
def parseDateFromText (y : Nat) (text : String) : Option DateOut :=
  let t := collapseWs text.toList
  let low := t.map Char.toLower
  if scanWords todayWords false low then some DateOut.nowMark
  else
    match scanMonth false low with
    | some (m, d, yr) =>
      some (DateOut.ymd (yr.getD y) m d)
    | none =>
      match scanNum false t with
      | some (m, d, yr) =>
        let y0 := yr.getD y
        some (DateOut.ymd (if y0 < 100 then 2000 + y0 else y0) m d)
      | none => none

/-! ## Label matching

Two matchers appear in the cited revisions.
`src/server/index.js` lines 219-226 builds
`new RegExp(`\b${label.toLowerCase()}\b`, 'i')` and tests it against
`(aria-label || text).trim().toLowerCase()`: case-insensitive and
whole-word.  `Run-Server.bat` lines 249-254 (`CT_LABEL_RE`) instead
uses unanchored alternations without `\b`:
`Day: /(day(?:time)?)/i`, `Night: /(night)/i`,
`Midday: /(midday|day(?:time)?)/i`, `Evening: /(evening|night)/i`. -/

/-- Is there an occurrence of the (word-character-only) literal `pat`
in `t` flanked by word boundaries?  Models `\b pat \b` testing. -/
def wordBoundaryScan (pat : List Char) : Bool → List Char → Bool
  | prevW, [] => !prevW && anyLitHere [pat] []
  | prevW, c :: rest =>
    (!prevW && anyLitHere [pat] (c :: rest)) ||
      wordBoundaryScan pat (wordChar c) rest

/-- The index.js label test: `\b label \b`, case-insensitive, against
the trimmed, lowercased element text. -/
def indexLabelTest (label text : String) : Bool :=
  wordBoundaryScan (label.toList.map Char.toLower) false
    ((trimBlanks text.toList).map Char.toLower)

/-- The four slot labels used by the per-state configuration. -/
inductive SlotLabel where
  | Day : SlotLabel
  | Night : SlotLabel
  | Midday : SlotLabel
  | Evening : SlotLabel
deriving DecidableEq, Repr

/-- `CT_LABEL_RE[label].test(text)` on an already-lowercased text.  The
`(?:time)?` suffixes are optional, so each alternation matches exactly
when its mandatory stem occurs as a substring. -/
def ctLabelTestL (L : SlotLabel) (low : List Char) : Bool :=
  match L with
  | .Day => containsLit ('d' :: 'a' :: 'y' :: []) low
  | .Night => containsLit ('n' :: 'i' :: 'g' :: 'h' :: 't' :: []) low
  | .Midday =>
    containsLit ('m' :: 'i' :: 'd' :: 'd' :: 'a' :: 'y' :: []) low ||
      containsLit ('d' :: 'a' :: 'y' :: []) low
  | .Evening =>
    containsLit ('e' :: 'v' :: 'e' :: 'n' :: 'i' :: 'n' :: 'g' :: []) low ||
      containsLit ('n' :: 'i' :: 'g' :: 'h' :: 't' :: []) low

/-- `CT_LABEL_RE[label].test(text)` (case-insensitive flags). -/
def ctLabelTest (L : SlotLabel) (text : String) : Bool :=
  ctLabelTestL L (text.toList.map Char.toLower)

/-! ## Latest-date selection

`dateCand.sort((a, b) => a - b).pop()` (index.js line 270) and
`[...].filter(Boolean).sort((a, b) => a - b).pop()` (index.js lines
357-363, Run-Server.bat lines 654-656): an ascending comparator sort
followed by taking the last element, i.e. the maximum.  dayjs values
compare through `valueOf`, modelled as `Nat`. -/

/-- Ascending sort followed by `pop()`: the latest candidate. -/
def resolveDateMax (l : List Nat) : Option Nat :=
  (List.insertionSort (· ≤ ·) l).getLast?

/-- The non-`null` entries, in order (`filter(Boolean)`). -/
def filterSome (l : List (Option Nat)) : List Nat :=
  l.filterMap id

/-! ## Cross-URL fallback and pair aggregation

`tryUrls` (index.js lines 327-339): for each URL in order, fetch and
extract inside a `try`; a throw is logged and the loop continues; a
truthy `digits` returns the extraction; exhaustion returns
`{digits: null, date: null}`.  The fetch-plus-extract step for one URL
is abstracted as `attempt`; a transport error is `Except.error`. -/

/-- JavaScript truthiness of a nullable string. -/
def truthyStr : Option String → Bool
  | none => false
  | some s => !s.isEmpty

/-- One slot extraction: `{digits, date}` (date as a timestamp). -/
structure ExtractionOut where
  digits : Option String
  date : Option Nat
deriving DecidableEq, Repr

/-- The absent result `{digits: null, date: null}`. -/
def absentOut : ExtractionOut := ⟨none, none⟩

/-- `tryUrls` of index.js lines 327-339. -/
def tryUrls (attempt : String → Except String ExtractionOut) :
    List String → ExtractionOut
  | [] => absentOut
  | u :: rest =>
    match attempt u with
    | .error _ => tryUrls attempt rest
    | .ok r => if truthyStr r.digits then r else tryUrls attempt rest

/-- The report shape of the index.js revision:
`{dateISO, midday, evening}`. -/
structure ReportIdx where
  dateISO : Nat
  midday : Option String
  evening : Option String
deriving DecidableEq, Repr

/-- `mid3 && mid4 ? `${mid3}-${mid4}` : null` on nullable strings
(empty strings are falsy). -/
def joinPair : Option String → Option String → Option String
  | some a, some b =>
    if !a.isEmpty && !b.isEmpty then some (a ++ "-" ++ b) else none
  | _, _ => none

/-- Per-slot date of index.js lines 357-358:
`[d3, d4].filter(Boolean).sort((a,b) => a-b).pop() || today`. -/
def slotDateIdx (d3 d4 : Option Nat) (today : Nat) : Nat :=
  (resolveDateMax (filterSome [d3, d4])).getD today

/-- `combinedPair` of index.js lines 342-366 (given the four settled
`tryUrls` results and "today"): combined strings by truthiness of both
halves; per-slot dates default to today; the report date is the latest
of the per-slot dates of slots with a combined value, else today. -/
def combinedPairIdx (mid3 eve3 mid4 eve4 : ExtractionOut) (today : Nat) :
    ReportIdx :=
  let middayDigits := joinPair mid3.digits mid4.digits
  let eveningDigits := joinPair eve3.digits eve4.digits
  let middayDate := slotDateIdx mid3.date mid4.date today
  let eveningDate := slotDateIdx eve3.date eve4.date today
  let dateCandidates :=
    (if truthyStr middayDigits then [middayDate] else []) ++
      (if truthyStr eveningDigits then [eveningDate] else [])
  { dateISO := (resolveDateMax dateCandidates).getD today
    midday := middayDigits
    evening := eveningDigits }

/-- The report shape of the Run-Server.bat revision 3:
`{dateISO, midday, evening, night}`. -/
structure ReportRun where
  dateISO : Nat
  midday : Option String
  evening : Option String
  night : Option String
deriving DecidableEq, Repr

/-- `const ok = (s, n) => typeof s === 'string' && /^\d+$/.test(s) &&
s.length === n`, applied as `ok(x.digits, n) ? x.digits : null`
(Run-Server.bat lines 628-638). -/
def okN (s : Option String) (n : Nat) : Option String :=
  match s with
  | some str =>
    if !str.isEmpty && str.toList.all Char.isDigit && str.length = n then
      some str
    else none
  | none => none

/-- `pickLatest` of Run-Server.bat lines 645-648:
`a && b ? (a.valueOf() >= b.valueOf() ? a : b) : (a || b || null)`. -/
def pickLatest : Option Nat → Option Nat → Option Nat
  | some a, some b => if b ≤ a then some a else some b
  | some a, none => some a
  | none, some b => some b
  | none, none => none

/-- `combinedPair` of Run-Server.bat lines 607-664 (given the six
settled `tryUrls` results — the night pair is `{null, null}` when the
state has no night slot — and "today"): digits are validated with `ok`,
combined strings need both halves, per-slot dates are taken only from
slots that produced a combined value, and the report date is the latest
such slot date, else today. -/
def combinedPairRun (mid3 eve3 mid4 eve4 n3 n4 : ExtractionOut)
    (today : Nat) : ReportRun :=
  let m3 := okN mid3.digits 3
  let e3 := okN eve3.digits 3
  let m4 := okN mid4.digits 4
  let e4 := okN eve4.digits 4
  let nn3 := okN n3.digits 3
  let nn4 := okN n4.digits 4
  let midday := joinPair m3 m4
  let evening := joinPair e3 e4
  let night := joinPair nn3 nn4
  let middayDate := if truthyStr midday then pickLatest mid3.date mid4.date else none
  let eveningDate := if truthyStr evening then pickLatest eve3.date eve4.date else none
  let nightDate := if truthyStr night then pickLatest n3.date n4.date else none
  let latest := resolveDateMax (filterSome [middayDate, eveningDate, nightDate])
  { dateISO := latest.getD today
    midday := midday
    evening := evening
    night := night }

/-! ## API handlers

`src/unnamed/part_000` lines 64-69: the getter awaits `fetchDigits` for
each half with no internal catch, so a transport error propagates; the
route's `catch` answers `502 {error: 'scrape_failed'}`.

`src/server/index.js` lines 369-379: the route runs `combinedPair`
(whose `tryUrls` absorbs every throw) and even its own `catch` answers
`200` with an all-null report. -/

/-- An HTTP response of the latest-results route. -/
inductive ApiResp where
  | ok : Nat → ReportIdx → ApiResp
  | err : Nat → String → ApiResp
deriving DecidableEq, Repr

/-- `fetchDigits` of part_000 lines 16-37: fetch the page (propagating
any transport error) and extract candidate digit strings; the HTML
parsing is abstracted by `extract`. -/
def fetchDigitsP0 (fetch : String → Except String String)
    (extract : String → Nat → List String) (url : String) (n : Nat) :
    Except String (List String) :=
  (fetch url).map (fun html => extract html n)

/-- A part_000 state getter (lines 41-60): two sequential awaited
fetches; either failure aborts the getter with that error; otherwise
`digits[0] || null` fills each half. -/
def getterP0 (fetch : String → Except String String)
    (extract : String → Nat → List String) (url3 url4 : String)
    (today : Nat) : Except String ReportIdx := do
  let day ← fetchDigitsP0 fetch extract url3 3
  let night ← fetchDigitsP0 fetch extract url4 4
  pure { dateISO := today, midday := day.head?, evening := night.head? }

/-- The part_000 route `/api/:state/latest` (lines 64-69) for a known
state: a getter error becomes `502 {error: 'scrape_failed'}`. -/
def apiLatestP0 (fetch : String → Except String String)
    (extract : String → Nat → List String) (url3 url4 : String)
    (today : Nat) : ApiResp :=
  match getterP0 fetch extract url3 url4 today with
  | .ok r => ApiResp.ok 200 r
  | .error _ => ApiResp.err 502 "scrape_failed"

/-- The per-state URL lists of one index.js state entry (each slot's
attempt closure carries its label and digit count). -/
structure StateCfg where
  p3mid : List String
  p3eve : List String
  p4mid : List String
  p4eve : List String

/-- The index.js route `/api/:state/latest` (lines 369-379) for a known
state: the four `tryUrls` chains settle, `combinedPair` builds the
report, and the response is always a `200` report (the route's catch
also answers `200` with nulls). -/
def apiLatestIdx (a3m a3e a4m a4e : String → Except String ExtractionOut)
    (S : StateCfg) (today : Nat) : ApiResp :=
  ApiResp.ok 200
    (combinedPairIdx (tryUrls a3m S.p3mid) (tryUrls a3e S.p3eve)
      (tryUrls a4m S.p4mid) (tryUrls a4e S.p4eve) today)

/-! ## Specification-side definitions

These state properties the claims talk about; they are written from the
spec's wording, to be compared with the source-derived functions
above. -/

/-- Spec wording of C2: positions `i, …, i+n-1` of the leaf-value list
all hold single digits (a run of `n` consecutive single-digit
elements). -/
def windowOk (vals : List (Option Char)) (i n : Nat) : Bool :=
  n ≤ (vals.drop i).length && ((vals.drop i).take n).all Option.isSome

/-- The concatenation of the run starting at `i`. -/
def windowStr (vals : List (Option Char)) (i n : Nat) : String :=
  String.mk (((vals.drop i).take n).filterMap id)

/-- The ExtractionResult digits invariant (spec §3): absent, or exactly
`n` decimal digits. -/
def validDigits (o : Option String) (n : Nat) : Prop :=
  ∀ s, o = some s → s.length = n ∧ s.toList.all Char.isDigit = true

/-- A soft-miss of one URL attempt (spec §4.5): a transport error, or an
extraction whose digits are absent. -/
def missAt (attempt : String → Except String ExtractionOut)
    (u : String) : Prop :=
  (∃ e, attempt u = Except.error e) ∨
    (∃ r, attempt u = Except.ok r ∧ truthyStr r.digits = false)

/-- Spec wording of C6: the dates attached to slots whose `combined`
value is present — each present slot contributes the (non-null) dates of
its two halves. -/
def attachedDates (mid3 eve3 mid4 eve4 n3 n4 : ExtractionOut)
    (r : ReportRun) : List Nat :=
  (if r.midday.isSome then filterSome [mid3.date, mid4.date] else []) ++
    (if r.evening.isSome then filterSome [eve3.date, eve4.date] else []) ++
    (if r.night.isSome then filterSome [n3.date, n4.date] else [])

/-- The two decimal digits of `Y < 100`. -/
def twoDigits (Y : Nat) : List Char :=
  [Char.ofNat (48 + Y / 10), Char.ofNat (48 + Y % 10)]

/-- The numeric-date regex of index.js lines 258-265:
`\b(\d{1,2})[\/\-](\d{1,2})[\/\-](\d{2,4})\b` — slash or dash, year
REQUIRED — at this position. -/
def numAtIdx (t : List Char) : Option (Nat × Nat × Nat) :=
  match take12Digits t with
  | some (mm, s1 :: rest1b) =>
    if s1 = '/' || s1 = '-' then
      match take12Digits rest1b with
      | some (dd, s2 :: r3) =>
        if s2 = '/' || s2 = '-' then
          match (year24Cands r3).filter (fun yc => numBoundary yc.2) with
          | yc :: _ => some (digitsToNat mm, digitsToNat dd, yc.1)
          | [] => none
        else none
      | _ => none
    else none
  | _ => none

/-- Left-to-right scan for the index.js numeric date. -/
def scanNumIdx : Bool → List Char → Option (Nat × Nat × Nat)
  | prevW, [] => if prevW then none else numAtIdx []
  | prevW, c :: rest =>
    match if prevW then none else numAtIdx (c :: rest) with
    | some r => some r
    | none => scanNumIdx (wordChar c) rest

/-- The index.js per-element numeric date parse (lines 262-265): match
`m2`, then `yyyy = yy < 100 ? 2000 + yy : yy` and build the date. -/
def numDateIdx (t : String) : Option (Nat × Nat × Nat) :=
  (scanNumIdx false (cleanTextBlocksIdx t.toList)).map
    (fun r => (if r.2.2 < 100 then 2000 + r.2.2 else r.2.2, r.1, r.2.1))

/-! ## Helper lemmas -/

theorem singleDigitText_isDigit {t : String} {c : Char}
    (h : singleDigitText t = some c) : c.isDigit = true := by
  unfold singleDigitText at h
  split at h
  · split at h
    · cases h; assumption
    · exact absurd h (by simp)
  · exact absurd h (by simp)

theorem takeDigits_some {vals : List (Option Char)} {n : Nat}
    {w : List Char} (h : takeDigits vals n = some w) :
    w.length = n ∧ ∀ c ∈ w, some c ∈ vals := by
  induction vals generalizing n w with
  | nil =>
    cases n with
    | zero => simp [takeDigits] at h; simp [h]
    | succ k => simp [takeDigits] at h
  | cons v rest ih =>
    cases n with
    | zero => simp [takeDigits] at h; simp [h]
    | succ k =>
      cases v with
      | none => simp [takeDigits] at h
      | some c =>
        simp only [takeDigits, Option.map_eq_some'] at h
        obtain ⟨w', hw', rfl⟩ := h
        obtain ⟨hlen, hmem⟩ := ih hw'
        refine ⟨by simp [hlen], ?_⟩
        intro d hd
        rcases List.mem_cons.mp hd with rfl | hd'
        · exact List.mem_cons_self _ _
        · exact List.mem_cons_of_mem _ (hmem d hd')

theorem firstDigitWindow_some {vals : List (Option Char)} {n : Nat}
    {w : List Char} (h : firstDigitWindow n vals = some w) :
    w.length = n ∧ ∀ c ∈ w, some c ∈ vals := by
  induction vals with
  | nil => exact takeDigits_some h
  | cons v rest ih =>
    simp only [firstDigitWindow] at h
    cases htd : takeDigits (v :: rest) n with
    | some w0 =>
      rw [htd] at h
      cases h
      exact takeDigits_some htd
    | none =>
      rw [htd] at h
      obtain ⟨hlen, hmem⟩ := ih h
      exact ⟨hlen, fun c hc => List.mem_cons_of_mem _ (hmem c hc)⟩

theorem takeDigitRun_some {n : Nat} {t w : List Char}
    (h : takeDigitRun n t = some w) :
    w.length = n ∧ w.all Char.isDigit = true := by
  induction n generalizing t w with
  | zero =>
    cases t with
    | nil => simp [takeDigitRun] at h; simp [h]
    | cons c rest =>
      by_cases hc : c.isDigit = true
      · simp [takeDigitRun, hc] at h
      · simp [takeDigitRun, hc] at h
        simp [h]
  | succ k ih =>
    cases t with
    | nil => simp [takeDigitRun] at h
    | cons c rest =>
      by_cases hc : c.isDigit = true
      · simp only [takeDigitRun, hc, if_pos, Option.map_eq_some'] at h
        obtain ⟨w', hw', rfl⟩ := h
        obtain ⟨hlen, hall⟩ := ih hw'
        simp [hlen, hall, hc]
      · simp [takeDigitRun, hc] at h

theorem scanTight_some {n : Nat} {prevD : Bool} {t w : List Char}
    (h : scanTight n prevD t = some w) :
    w.length = n ∧ w.all Char.isDigit = true := by
  induction t generalizing prevD with
  | nil =>
    simp only [scanTight] at h
    split at h
    · exact absurd h (by simp)
    · exact takeDigitRun_some h
  | cons c rest ih =>
    simp only [scanTight] at h
    cases htd : if prevD then none else takeDigitRun n (c :: rest) with
    | some w0 =>
      rw [htd] at h
      cases h
      cases prevD with
      | false => simp at htd; exact takeDigitRun_some htd
      | true => simp at htd
    | none =>
      rw [htd] at h
      exact ih h

theorem tightFrom_some {n : Nat} {t w : List Char}
    (h : tightFrom n t = some w) :
    w.length = n ∧ w.all Char.isDigit = true := by
  induction n generalizing t w with
  | zero => simp [tightFrom] at h; simp [h]
  | succ k ih =>
    cases t with
    | nil => simp [tightFrom] at h
    | cons c rest =>
      by_cases hc : c.isDigit = true
      · simp only [tightFrom, hc, if_pos, Option.map_eq_some'] at h
        obtain ⟨w', hw', rfl⟩ := h
        obtain ⟨hlen, hall⟩ := ih hw'
        simp [hlen, hall, hc]
      · simp [tightFrom, hc] at h

theorem scanPlain_some {n : Nat} {t w : List Char}
    (h : scanPlain n t = some w) :
    w.length = n ∧ w.all Char.isDigit = true := by
  induction t with
  | nil => exact tightFrom_some h
  | cons c rest ih =>
    simp only [scanPlain] at h
    cases htf : tightFrom n (c :: rest) with
    | some w0 =>
      rw [htf] at h
      cases h
      exact tightFrom_some htf
    | none =>
      rw [htf] at h
      exact ih h

/-! ## Claim C1 -/

/-- C1: for every container/text, label and `n` (in particular
`n ∈ {3,4}`), the Digit Extractor — structural strategy
(`pickConsecutiveSingleDigitNodes` of Run-Server.bat, the span filter of
index.js `extractByLabel`) or textual strategy (`pickNDigitsFromTextSafe`
of index.js lines 181-186 and of Run-Server.bat lines 330-340) — either
returns a string of exactly `n` decimal digits or returns an absent
result; it never returns a string of length `≠ n` or containing a
non-decimal character. -/
theorem C1_extractor_digits_valid
    (texts : List String) (t : String) (n : Nat) (s : String) :
    (pickConsecutiveSingleDigitNodes texts n = some s →
      s.length = n ∧ s.toList.all Char.isDigit = true) ∧
    (spanDigitsIdx texts n = some s →
      s.length = n ∧ s.toList.all Char.isDigit = true) ∧
    (pickNDigitsTextIdx t n = some s →
      s.length = n ∧ s.toList.all Char.isDigit = true) ∧
    (pickNDigitsTextRun t n = some s →
      s.length = n ∧ s.toList.all Char.isDigit = true) := by
  refine ⟨?_, ?_, ?_, ?_⟩
  · intro h
    simp only [pickConsecutiveSingleDigitNodes, Option.map_eq_some'] at h
    obtain ⟨w, hw, rfl⟩ := h
    obtain ⟨hlen, hmem⟩ := firstDigitWindow_some hw
    refine ⟨hlen, ?_⟩
    simp only [String.toList, String.mk, List.all_eq_true]
    intro c hc
    have hsome := hmem c hc
    obtain ⟨x, hx, hxc⟩ := List.mem_map.mp hsome
    exact singleDigitText_isDigit hxc
  · intro h
    simp only [spanDigitsIdx] at h
    split at h
    · cases h
      have hlen : ((texts.filterMap singleDigitText).take n).length = n := by
        simp; omega
      refine ⟨hlen, ?_⟩
      simp only [String.toList, String.mk, List.all_eq_true]
      intro c hc
      have hc2 : c ∈ texts.filterMap singleDigitText :=
        List.mem_of_mem_take hc
      obtain ⟨x, hx, hxc⟩ := List.mem_filterMap.mp hc2
      exact singleDigitText_isDigit hxc
    · exact absurd h (by simp)
  · intro h
    simp only [pickNDigitsTextIdx, Option.map_eq_some'] at h
    obtain ⟨w, hw, rfl⟩ := h
    obtain ⟨hlen, hall⟩ := scanTight_some hw
    exact ⟨hlen, hall⟩
  · intro h
    simp only [pickNDigitsTextRun] at h
    cases hsl : scanLoose n (cleanTextBlocksRun t.toList) with
    | some w =>
      rw [hsl] at h
      dsimp only at h
      by_cases hd : ((w.filter Char.isDigit).take n).length = n
      · rw [if_pos hd] at h
        cases h
        refine ⟨hd, ?_⟩
        simp only [String.toList, String.mk, List.all_eq_true]
        intro c hc
        have := List.mem_of_mem_take hc
        exact List.of_mem_filter this
      · rw [if_neg hd] at h
        simp only [Option.map_eq_some'] at h
        obtain ⟨w2, hw2, rfl⟩ := h
        exact scanPlain_some hw2
    | none =>
      rw [hsl] at h
      simp only [Option.map_eq_some'] at h
      obtain ⟨w2, hw2, rfl⟩ := h
      exact scanPlain_some hw2

/-- Witness for C1 at concrete inputs: the structural extractor on
`["4","1","7"]` returns "417", which has length 3 and only digits. -/
theorem C1_witness :
    ("417" : String).length = 3 ∧
      ("417" : String).toList.all Char.isDigit = true :=
  (C1_extractor_digits_valid ["4", "1", "7"] "abc 417" 3 "417").1 (by decide)

/-! ## Claim C2 -/

theorem windowOk_cons_some (c : Char) (rest : List (Option Char))
    (n : Nat) :
    windowOk (some c :: rest) 0 (n + 1) = windowOk rest 0 n := by
  simp [windowOk, Nat.succ_le_succ_iff]

theorem takeDigits_eq_window (vals : List (Option Char)) (n : Nat) :
    takeDigits vals n =
      if windowOk vals 0 n then some ((vals.take n).filterMap id)
      else none := by
  induction vals generalizing n with
  | nil =>
    cases n with
    | zero => simp [takeDigits, windowOk]
    | succ k => simp [takeDigits, windowOk]
  | cons v rest ih =>
    cases n with
    | zero => simp [takeDigits, windowOk]
    | succ k =>
      cases v with
      | none => simp [takeDigits, windowOk]
      | some c =>
        simp only [takeDigits, ih k, windowOk_cons_some]
        cases hw : windowOk rest 0 k with
        | true => simp
        | false => simp

theorem firstDigitWindow_at (vals : List (Option Char)) (n i : Nat)
    (hwin : windowOk vals i n = true)
    (hfirst : ∀ j, j < i → windowOk vals j n = false) :
    firstDigitWindow n vals =
      some (((vals.drop i).take n).filterMap id) := by
  induction i generalizing vals with
  | zero =>
    have := takeDigits_eq_window vals n
    rw [if_pos hwin] at this
    cases vals with
    | nil => simpa [firstDigitWindow] using this
    | cons v rest => simp only [firstDigitWindow, this, List.drop_zero]
  | succ i ih =>
    have hj0 : windowOk vals 0 n = false := hfirst 0 (Nat.succ_pos i)
    cases vals with
    | nil =>
      have h1 : windowOk ([] : List (Option Char)) (i + 1) n =
          windowOk ([] : List (Option Char)) 0 n := by
        simp [windowOk]
      rw [h1, hj0] at hwin
      cases hwin
    | cons v rest =>
      have htd := takeDigits_eq_window (v :: rest) n
      rw [if_neg (by simp [hj0])] at htd
      simp only [firstDigitWindow, htd]
      have hdrop : ∀ j, windowOk rest j n = windowOk (v :: rest) (j + 1) n := by
        intro j
        simp [windowOk, List.drop_succ_cons]
      have hwin2 : windowOk rest i n = true := by rw [hdrop]; exact hwin
      have hfirst2 : ∀ j, j < i → windowOk rest j n = false :=
        fun j hj => by rw [hdrop]; exact hfirst (j + 1) (by omega)
      simpa [List.drop_succ_cons] using ih rest hwin2 hfirst2

/-- C2, amended.  The consecutive-run structural strategy
(`pickConsecutiveSingleDigitNodes`) satisfies the claim: if position `i`
starts the first run of `n` consecutive single-digit leaves, the result
is that run's concatenation.  The index.js structural variant instead
concatenates the first `n` single-digit leaves in document order
regardless of adjacency, so it agrees with the claim only when those
leaves are consecutive. -/
theorem C2_structural_first_run (texts : List String) (n i : Nat) :
    (windowOk (texts.map singleDigitText) i n = true →
      (∀ j, j < i → windowOk (texts.map singleDigitText) j n = false) →
      pickConsecutiveSingleDigitNodes texts n =
        some (windowStr (texts.map singleDigitText) i n)) ∧
    (n ≤ (texts.filterMap singleDigitText).length →
      spanDigitsIdx texts n =
        some (String.mk ((texts.filterMap singleDigitText).take n))) := by
  constructor
  · intro hwin hfirst
    unfold pickConsecutiveSingleDigitNodes windowStr
    rw [firstDigitWindow_at _ n i hwin hfirst]
    rfl
  · intro hlen
    unfold spanDigitsIdx
    rw [if_pos hlen]

/-- C2 counterexample: with leaves `["7","x","1","2","3"]` and `n = 3`,
the first (and only) run of three consecutive single-digit leaves is
`"123"` at position 2, but the index.js structural strategy returns
`"712"` — not the concatenation of the first run. -/
theorem C2_counterexample :
    spanDigitsIdx ["7", "x", "1", "2", "3"] 3 = some "712" ∧
    windowOk (["7", "x", "1", "2", "3"].map singleDigitText) 2 3 = true ∧
    windowOk (["7", "x", "1", "2", "3"].map singleDigitText) 0 3 = false ∧
    windowOk (["7", "x", "1", "2", "3"].map singleDigitText) 1 3 = false ∧
    windowStr (["7", "x", "1", "2", "3"].map singleDigitText) 2 3 = "123" ∧
    some ("712" : String) ≠ some ("123" : String) := by
  decide

/-- Witness for C2 at the same concrete leaves: the Run-Server
structural strategy does return the first consecutive run "123". -/
theorem C2_witness :
    pickConsecutiveSingleDigitNodes ["7", "x", "1", "2", "3"] 3 =
      some (windowStr (["7", "x", "1", "2", "3"].map singleDigitText) 2 3) :=
  (C2_structural_first_run ["7", "x", "1", "2", "3"] 3 2).1 (by decide)
    (fun j hj => by interval_cases j <;> decide)

/-! ## Claim C3 -/

theorem validDigits_isEmpty_false {s : String} {n : Nat}
    (h : validDigits (some s) n) (hn : 0 < n) : s.isEmpty = false := by
  obtain ⟨hlen, _⟩ := h s rfl
  by_cases he : s.isEmpty = true
  · have : s = "" := (String.isEmpty_iff s).mp he
    subst this
    simp [String.length] at hlen
    omega
  · simpa using he

theorem joinPair_isSome {a b : Option String} {na nb : Nat}
    (hna : 0 < na) (hnb : 0 < nb)
    (ha : validDigits a na) (hb : validDigits b nb) :
    (joinPair a b).isSome = true ↔
      a.isSome = true ∧ b.isSome = true := by
  cases a with
  | none => simp [joinPair]
  | some x =>
    cases b with
    | none => simp [joinPair]
    | some y =>
      have hx := validDigits_isEmpty_false ha hna
      have hy := validDigits_isEmpty_false hb hnb
      simp [joinPair, hx, hy]

theorem okN_of_valid {s : Option String} {n : Nat}
    (h : validDigits s n) (hn : 0 < n) : okN s n = s := by
  cases s with
  | none => rfl
  | some str =>
    obtain ⟨hlen, hall⟩ := h str rfl
    have hne := validDigits_isEmpty_false h hn
    have hall2 : ∀ x ∈ str.data, x.isDigit = true := by
      simpa [String.toList, List.all_eq_true] using hall
    simp [okN, hne, hlen]
    exact hall2

/-- C3: in both aggregator revisions, a slot's `combined` value is
present if and only if both the slot's 3-digit and 4-digit extractions
produced digits, assuming each extraction satisfies the digits
invariant (C1): exactly `n` decimal digits or absent. -/
theorem C3_combined_iff_both
    (mid3 eve3 mid4 eve4 n3 n4 : ExtractionOut) (today : Nat)
    (h3m : validDigits mid3.digits 3) (h4m : validDigits mid4.digits 4)
    (h3e : validDigits eve3.digits 3) (h4e : validDigits eve4.digits 4)
    (h3n : validDigits n3.digits 3) (h4n : validDigits n4.digits 4) :
    ((combinedPairIdx mid3 eve3 mid4 eve4 today).midday.isSome = true ↔
      mid3.digits.isSome = true ∧ mid4.digits.isSome = true) ∧
    ((combinedPairIdx mid3 eve3 mid4 eve4 today).evening.isSome = true ↔
      eve3.digits.isSome = true ∧ eve4.digits.isSome = true) ∧
    ((combinedPairRun mid3 eve3 mid4 eve4 n3 n4 today).midday.isSome = true ↔
      mid3.digits.isSome = true ∧ mid4.digits.isSome = true) ∧
    ((combinedPairRun mid3 eve3 mid4 eve4 n3 n4 today).evening.isSome = true ↔
      eve3.digits.isSome = true ∧ eve4.digits.isSome = true) ∧
    ((combinedPairRun mid3 eve3 mid4 eve4 n3 n4 today).night.isSome = true ↔
      n3.digits.isSome = true ∧ n4.digits.isSome = true) := by
  have hIdxM : (combinedPairIdx mid3 eve3 mid4 eve4 today).midday =
      joinPair mid3.digits mid4.digits := rfl
  have hIdxE : (combinedPairIdx mid3 eve3 mid4 eve4 today).evening =
      joinPair eve3.digits eve4.digits := rfl
  have hRunM : (combinedPairRun mid3 eve3 mid4 eve4 n3 n4 today).midday =
      joinPair (okN mid3.digits 3) (okN mid4.digits 4) := rfl
  have hRunE : (combinedPairRun mid3 eve3 mid4 eve4 n3 n4 today).evening =
      joinPair (okN eve3.digits 3) (okN eve4.digits 4) := rfl
  have hRunN : (combinedPairRun mid3 eve3 mid4 eve4 n3 n4 today).night =
      joinPair (okN n3.digits 3) (okN n4.digits 4) := rfl
  rw [hIdxM, hIdxE, hRunM, hRunE, hRunN,
    okN_of_valid h3m (by omega), okN_of_valid h4m (by omega),
    okN_of_valid h3e (by omega), okN_of_valid h4e (by omega),
    okN_of_valid h3n (by omega), okN_of_valid h4n (by omega)]
  exact ⟨joinPair_isSome (by omega) (by omega) h3m h4m,
    joinPair_isSome (by omega) (by omega) h3e h4e,
    joinPair_isSome (by omega) (by omega) h3m h4m,
    joinPair_isSome (by omega) (by omega) h3e h4e,
    joinPair_isSome (by omega) (by omega) h3n h4n⟩

/-- Witness for C3 at concrete extractions: midday has both halves
("417", "1234") so `combined` is present; by the same theorem the
evening slot, missing its 3-digit half, yields no combined value. -/
theorem C3_witness :
    (combinedPairIdx ⟨some "417", none⟩ ⟨none, none⟩ ⟨some "1234", none⟩
        ⟨some "5678", none⟩ 0).midday.isSome = true ∧
    ¬ (combinedPairIdx ⟨some "417", none⟩ ⟨none, none⟩ ⟨some "1234", none⟩
        ⟨some "5678", none⟩ 0).evening.isSome = true := by
  have hv417 : validDigits (some "417") 3 := by
    intro s hs
    simp only [Option.some.injEq] at hs
    subst hs
    decide
  have hv1234 : validDigits (some "1234") 4 := by
    intro s hs
    simp only [Option.some.injEq] at hs
    subst hs
    decide
  have hv5678 : validDigits (some "5678") 4 := by
    intro s hs
    simp only [Option.some.injEq] at hs
    subst hs
    decide
  have hvnone3 : validDigits (none : Option String) 3 := by
    intro s hs
    simp at hs
  have h := C3_combined_iff_both ⟨some "417", none⟩ ⟨none, none⟩
    ⟨some "1234", none⟩ ⟨some "5678", none⟩ ⟨none, none⟩ ⟨none, none⟩ 0
    hv417 hv1234 hvnone3 hv5678 hvnone3
    (by intro s hs; simp at hs)
  refine ⟨h.1.mpr (by decide), ?_⟩
  intro hcontra
  have := h.2.1.mp hcontra
  simp at this

/-! ## Claim C4 -/

theorem tryUrls_allMiss (attempt : String → Except String ExtractionOut) :
    ∀ urls : List String, (∀ u ∈ urls, missAt attempt u) →
      tryUrls attempt urls = absentOut := by
  intro urls
  induction urls with
  | nil => intro _; rfl
  | cons u rest ih =>
    intro hmiss
    have hu := hmiss u (List.mem_cons_self _ _)
    have hrest := fun v hv => hmiss v (List.mem_cons_of_mem _ hv)
    simp only [tryUrls]
    rcases hu with ⟨e, he⟩ | ⟨r, hr, hf⟩
    · rw [he]
      exact ih hrest
    · rw [hr]
      dsimp only
      rw [hf]
      simp only [Bool.false_eq_true, if_false]
      exact ih hrest

theorem tryUrls_firstHit (attempt : String → Except String ExtractionOut) :
    ∀ (pre : List String) (u : String) (post : List String)
      (r : ExtractionOut),
      (∀ v ∈ pre, missAt attempt v) → attempt u = Except.ok r →
      truthyStr r.digits = true →
      tryUrls attempt (pre ++ u :: post) = r := by
  intro pre
  induction pre with
  | nil =>
    intro u post r _ hu ht
    simp only [List.nil_append, tryUrls, hu, ht, if_true]
  | cons v rest ih =>
    intro u post r hmiss hu ht
    have hv := hmiss v (List.mem_cons_self _ _)
    have hrest := fun x hx => hmiss x (List.mem_cons_of_mem _ hx)
    simp only [List.cons_append, tryUrls]
    rcases hv with ⟨e, he⟩ | ⟨r0, hr0, hf0⟩
    · rw [he]
      exact ih u post r hrest hu ht
    · rw [hr0]
      dsimp only
      rw [hf0]
      simp only [Bool.false_eq_true, if_false]
      exact ih u post r hrest hu ht

/-- C4: `tryUrls` goes through the candidate URLs in order; the first
attempt that returns (without throwing) an extraction with non-absent
(truthy) digits is the result; a fetch failure (`Except.error`, which
the loop's `catch` absorbs after logging the tag) or an extraction miss
on an earlier URL is skipped; and if every URL misses, the absent
result `{digits: null, date: null}` is returned — never an error. -/
theorem C4_tryUrls_fallback (attempt : String → Except String ExtractionOut) :
    (∀ urls : List String, (∀ u ∈ urls, missAt attempt u) →
      tryUrls attempt urls = absentOut) ∧
    (∀ (pre : List String) (u : String) (post : List String)
      (r : ExtractionOut),
      (∀ v ∈ pre, missAt attempt v) → attempt u = Except.ok r →
      truthyStr r.digits = true →
      tryUrls attempt (pre ++ u :: post) = r) :=
  ⟨tryUrls_allMiss attempt, tryUrls_firstHit attempt⟩

/-- Witness for C4: a first URL that fails transport, a second URL that
extracts "417"; the chain returns the second extraction. -/
theorem C4_witness :
    tryUrls
      (fun u => if u = "u1" then Except.error "HTTP 404"
        else Except.ok ⟨some "417", some 9⟩)
      (["u1"] ++ "u2" :: []) = ⟨some "417", some 9⟩ :=
  (C4_tryUrls_fallback _).2 ["u1"] "u2" [] ⟨some "417", some 9⟩
    (fun v hv => by
      simp at hv
      subst hv
      exact Or.inl ⟨"HTTP 404", rfl⟩)
    rfl (by decide)

/-! ## Claim C5 -/

/-- C5 counterexample: in the `part_000` revision, when every fetch
fails the state getter propagates the transport error and the route
answers `502 {error: 'scrape_failed'}` — an error response for a known
state, not the all-null report the claim promises. -/
theorem C5_counterexample :
    apiLatestP0 (fun _ => Except.error "ETIMEDOUT") (fun _ _ => [])
        "url3" "url4" 7 = ApiResp.err 502 "scrape_failed" ∧
      ApiResp.err 502 "scrape_failed" ≠
        ApiResp.ok 200 { dateISO := 7, midday := none, evening := none } := by
  constructor
  · rfl
  · intro h
    cases h

/-- C5, amended: in the index.js revision (route at lines 369-379),
when every fetch attempt of every slot fails, every `tryUrls` chain
settles to the absent result, and the route answers `200` with
`{dateISO: today, midday: null, evening: null}` — no error surfaces.
In the `part_000` revision a fetch failure instead surfaces as a
`502 scrape_failed` error response. -/
theorem C5_all_fail_report
    (a3m a3e a4m a4e : String → Except String ExtractionOut)
    (S : StateCfg) (today : Nat)
    (h1 : ∀ u, ∃ e, a3m u = Except.error e)
    (h2 : ∀ u, ∃ e, a3e u = Except.error e)
    (h3 : ∀ u, ∃ e, a4m u = Except.error e)
    (h4 : ∀ u, ∃ e, a4e u = Except.error e) :
    apiLatestIdx a3m a3e a4m a4e S today =
      ApiResp.ok 200 { dateISO := today, midday := none, evening := none } := by
  unfold apiLatestIdx
  rw [tryUrls_allMiss a3m S.p3mid (fun u _ => Or.inl (h1 u)),
    tryUrls_allMiss a3e S.p3eve (fun u _ => Or.inl (h2 u)),
    tryUrls_allMiss a4m S.p4mid (fun u _ => Or.inl (h3 u)),
    tryUrls_allMiss a4e S.p4eve (fun u _ => Or.inl (h4 u))]
  rfl

/-- Witness for C5 at a concrete all-failing fetcher. -/
theorem C5_witness :
    apiLatestIdx (fun _ => Except.error "timeout")
      (fun _ => Except.error "timeout") (fun _ => Except.error "timeout")
      (fun _ => Except.error "timeout")
      { p3mid := ["a", "b"], p3eve := ["c"], p4mid := ["d"], p4eve := ["e"] }
      42 =
    ApiResp.ok 200 { dateISO := 42, midday := none, evening := none } :=
  C5_all_fail_report _ _ _ _ _ 42
    (fun _ => ⟨"timeout", rfl⟩) (fun _ => ⟨"timeout", rfl⟩)
    (fun _ => ⟨"timeout", rfl⟩) (fun _ => ⟨"timeout", rfl⟩)

/-! ## Claim C6 -/

theorem sortedLast_max :
    ∀ l : List Nat, List.Sorted (· ≤ ·) l → ∀ m, l.getLast? = some m →
      ∀ x ∈ l, x ≤ m := by
  intro l
  induction l with
  | nil => intro _ m _ x hx; cases hx
  | cons a rest ih =>
    intro hs m hlast x hx
    have hrel := List.rel_of_sorted_cons hs
    cases rest with
    | nil =>
      simp at hlast
      subst hlast
      rcases List.mem_singleton.mp hx with rfl
      exact Nat.le_refl _
    | cons b r =>
      rw [List.getLast?_cons_cons] at hlast
      rcases List.mem_cons.mp hx with rfl | hx'
      · exact Nat.le_trans
          (hrel _ (List.mem_cons_self _ _))
          (ih hs.of_cons m hlast b (List.mem_cons_self _ _))
      · exact ih hs.of_cons m hlast x hx'

theorem resolveDateMax_spec (l : List Nat) :
    (l = [] → resolveDateMax l = none) ∧
    (l ≠ [] → ∃ m, resolveDateMax l = some m ∧ m ∈ l ∧
      ∀ d ∈ l, d ≤ m) := by
  constructor
  · intro h
    subst h
    rfl
  · intro hne
    have hperm := List.perm_insertionSort (· ≤ ·) l
    have hsne : List.insertionSort (· ≤ ·) l ≠ [] := by
      intro h0
      rw [h0] at hperm
      exact hne hperm.symm.eq_nil
    obtain ⟨m, hm⟩ :=
      Option.isSome_iff_exists.mp (List.getLast?_isSome.mpr hsne)
    refine ⟨m, hm, ?_, ?_⟩
    · exact hperm.mem_iff.mp (List.mem_of_getLast?_eq_some hm)
    · intro d hd
      exact sortedLast_max _ (List.sorted_insertionSort (· ≤ ·) l) m hm d
        (hperm.mem_iff.mpr hd)

theorem pickLatest_none_iff (a b : Option Nat) :
    pickLatest a b = none ↔ filterSome [a, b] = [] := by
  cases a with
  | none =>
    cases b with
    | none => simp [pickLatest, filterSome]
    | some y => simp [pickLatest, filterSome]
  | some x =>
    cases b with
    | none => simp [pickLatest, filterSome]
    | some y =>
      simp only [pickLatest, filterSome]
      constructor
      · intro h
        split at h <;> cases h
      · intro h
        simp at h

theorem pickLatest_mem_max (a b : Option Nat) (m : Nat)
    (h : pickLatest a b = some m) :
    m ∈ filterSome [a, b] ∧ ∀ d ∈ filterSome [a, b], d ≤ m := by
  cases a with
  | none =>
    cases b with
    | none => cases h
    | some y =>
      simp only [pickLatest, Option.some.injEq] at h
      subst h
      simp [filterSome]
  | some x =>
    cases b with
    | none =>
      simp only [pickLatest, Option.some.injEq] at h
      subst h
      simp [filterSome]
    | some y =>
      simp only [pickLatest] at h
      by_cases hyx : y ≤ x
      · rw [if_pos hyx] at h
        cases h
        simp [filterSome]
        omega
      · rw [if_neg hyx] at h
        cases h
        simp [filterSome]
        omega

theorem slotGate_spec (P : Bool) (d3 d4 : Option Nat) :
    ((if P = true then pickLatest d3 d4 else none) = none ↔
      (if P = true then filterSome [d3, d4] else []) = []) ∧
    (∀ m, (if P = true then pickLatest d3 d4 else none) = some m →
      m ∈ (if P = true then filterSome [d3, d4] else []) ∧
        ∀ d ∈ (if P = true then filterSome [d3, d4] else []), d ≤ m) := by
  cases P with
  | false => simp
  | true =>
    simp only [if_pos rfl]
    exact ⟨pickLatest_none_iff d3 d4, pickLatest_mem_max d3 d4⟩

theorem gatedMax_spec (sd1 sd2 sd3 : Option Nat)
    (blk1 blk2 blk3 : List Nat) (today : Nat)
    (h1 : (sd1 = none ↔ blk1 = []) ∧
      ∀ m, sd1 = some m → m ∈ blk1 ∧ ∀ d ∈ blk1, d ≤ m)
    (h2 : (sd2 = none ↔ blk2 = []) ∧
      ∀ m, sd2 = some m → m ∈ blk2 ∧ ∀ d ∈ blk2, d ≤ m)
    (h3 : (sd3 = none ↔ blk3 = []) ∧
      ∀ m, sd3 = some m → m ∈ blk3 ∧ ∀ d ∈ blk3, d ≤ m) :
    (blk1 ++ blk2 ++ blk3 = [] →
      (resolveDateMax (filterSome [sd1, sd2, sd3])).getD today = today) ∧
    (∀ d ∈ blk1 ++ blk2 ++ blk3,
      d ≤ (resolveDateMax (filterSome [sd1, sd2, sd3])).getD today) ∧
    (blk1 ++ blk2 ++ blk3 ≠ [] →
      (resolveDateMax (filterSome [sd1, sd2, sd3])).getD today ∈
        blk1 ++ blk2 ++ blk3) := by
  have memS : ∀ m : Nat, m ∈ filterSome [sd1, sd2, sd3] ↔
      sd1 = some m ∨ sd2 = some m ∨ sd3 = some m := by
    intro m
    simp [filterSome, eq_comm]
  refine ⟨?_, ?_, ?_⟩
  · intro hA
    simp only [List.append_eq_nil] at hA
    obtain ⟨⟨hb1, hb2⟩, hb3⟩ := hA
    rw [h1.1.mpr hb1, h2.1.mpr hb2, h3.1.mpr hb3]
    rfl
  · intro d hd
    have hslot : ∃ m, (sd1 = some m ∨ sd2 = some m ∨ sd3 = some m) ∧
        d ≤ m := by
      rcases List.mem_append.mp hd with hd12 | hd3
      · rcases List.mem_append.mp hd12 with hd1 | hd2
        · have hne : blk1 ≠ [] := List.ne_nil_of_mem hd1
          have : sd1 ≠ none := fun h0 => hne (h1.1.mp h0)
          obtain ⟨m, hm⟩ := Option.ne_none_iff_exists'.mp this
          exact ⟨m, Or.inl hm, (h1.2 m hm).2 d hd1⟩
        · have hne : blk2 ≠ [] := List.ne_nil_of_mem hd2
          have : sd2 ≠ none := fun h0 => hne (h2.1.mp h0)
          obtain ⟨m, hm⟩ := Option.ne_none_iff_exists'.mp this
          exact ⟨m, Or.inr (Or.inl hm), (h2.2 m hm).2 d hd2⟩
      · have hne : blk3 ≠ [] := List.ne_nil_of_mem hd3
        have : sd3 ≠ none := fun h0 => hne (h3.1.mp h0)
        obtain ⟨m, hm⟩ := Option.ne_none_iff_exists'.mp this
        exact ⟨m, Or.inr (Or.inr hm), (h3.2 m hm).2 d hd3⟩
    obtain ⟨m, hm, hdm⟩ := hslot
    have hmS : m ∈ filterSome [sd1, sd2, sd3] := (memS m).mpr hm
    have hSne : filterSome [sd1, sd2, sd3] ≠ [] := List.ne_nil_of_mem hmS
    obtain ⟨M, hM, _, hMmax⟩ := (resolveDateMax_spec _).2 hSne
    rw [hM]
    exact Nat.le_trans hdm (hMmax m hmS)
  · intro hA
    obtain ⟨d, hd⟩ := List.exists_mem_of_ne_nil _ hA
    have hslot : ∃ m, sd1 = some m ∨ sd2 = some m ∨ sd3 = some m := by
      rcases List.mem_append.mp hd with hd12 | hd3
      · rcases List.mem_append.mp hd12 with hd1 | hd2
        · have hne : blk1 ≠ [] := List.ne_nil_of_mem hd1
          have : sd1 ≠ none := fun h0 => hne (h1.1.mp h0)
          obtain ⟨m, hm⟩ := Option.ne_none_iff_exists'.mp this
          exact ⟨m, Or.inl hm⟩
        · have hne : blk2 ≠ [] := List.ne_nil_of_mem hd2
          have : sd2 ≠ none := fun h0 => hne (h2.1.mp h0)
          obtain ⟨m, hm⟩ := Option.ne_none_iff_exists'.mp this
          exact ⟨m, Or.inr (Or.inl hm)⟩
      · have hne : blk3 ≠ [] := List.ne_nil_of_mem hd3
        have : sd3 ≠ none := fun h0 => hne (h3.1.mp h0)
        obtain ⟨m, hm⟩ := Option.ne_none_iff_exists'.mp this
        exact ⟨m, Or.inr (Or.inr hm)⟩
    obtain ⟨m, hm⟩ := hslot
    have hmS : m ∈ filterSome [sd1, sd2, sd3] := (memS m).mpr hm
    have hSne : filterSome [sd1, sd2, sd3] ≠ [] := List.ne_nil_of_mem hmS
    obtain ⟨M, hM, hMmem, _⟩ := (resolveDateMax_spec _).2 hSne
    rw [hM]
    rcases (memS M).mp hMmem with hMs | hMs | hMs
    · exact List.mem_append.mpr (Or.inl
        (List.mem_append.mpr (Or.inl (h1.2 M hMs).1)))
    · exact List.mem_append.mpr (Or.inl
        (List.mem_append.mpr (Or.inr (h2.2 M hMs).1)))
    · exact List.mem_append.mpr (Or.inr (h3.2 M hMs).1)

theorem joinPair_truthy (a b : Option String) :
    truthyStr (joinPair a b) = (joinPair a b).isSome := by
  cases a with
  | none => rfl
  | some x =>
    cases b with
    | none => rfl
    | some y =>
      simp only [joinPair]
      by_cases hc : (!x.isEmpty && !y.isEmpty) = true
      · rw [if_pos hc]
        have hlen1 : ("-" : String).length = 1 := rfl
        have hne2 : (x ++ "-" ++ y).isEmpty = false := by
          by_cases he : (x ++ "-" ++ y).isEmpty = true
          · exfalso
            have h0 := (String.isEmpty_iff _).mp he
            have h1 : (x ++ "-" ++ y).length = 0 := by rw [h0]; rfl
            rw [String.length_append, String.length_append, hlen1] at h1
            omega
          · simpa using he
        simp [truthyStr, hne2]
      · rw [if_neg hc]
        rfl

/-- C6, amended.  For the Run-Server.bat aggregator the claim holds:
`dateISO` is the latest calendar date among the dates attached to slots
whose `combined` value is present, and defaults to "today" when no such
date exists (in particular when no slot produced a combined value).
(In the index.js aggregator, a combined slot whose halves carry no date
is instead assigned "today" as its per-slot date, so its `dateISO` can
exceed every attached date — see the counterexample.) -/
theorem C6_report_date (mid3 eve3 mid4 eve4 n3 n4 : ExtractionOut)
    (today : Nat) :
    (attachedDates mid3 eve3 mid4 eve4 n3 n4
        (combinedPairRun mid3 eve3 mid4 eve4 n3 n4 today) = [] →
      (combinedPairRun mid3 eve3 mid4 eve4 n3 n4 today).dateISO = today) ∧
    (∀ d ∈ attachedDates mid3 eve3 mid4 eve4 n3 n4
        (combinedPairRun mid3 eve3 mid4 eve4 n3 n4 today),
      d ≤ (combinedPairRun mid3 eve3 mid4 eve4 n3 n4 today).dateISO) ∧
    (attachedDates mid3 eve3 mid4 eve4 n3 n4
        (combinedPairRun mid3 eve3 mid4 eve4 n3 n4 today) ≠ [] →
      (combinedPairRun mid3 eve3 mid4 eve4 n3 n4 today).dateISO ∈
        attachedDates mid3 eve3 mid4 eve4 n3 n4
          (combinedPairRun mid3 eve3 mid4 eve4 n3 n4 today)) := by
  have hdate : (combinedPairRun mid3 eve3 mid4 eve4 n3 n4 today).dateISO =
      (resolveDateMax (filterSome
        [if truthyStr (joinPair (okN mid3.digits 3) (okN mid4.digits 4)) = true
           then pickLatest mid3.date mid4.date else none,
         if truthyStr (joinPair (okN eve3.digits 3) (okN eve4.digits 4)) = true
           then pickLatest eve3.date eve4.date else none,
         if truthyStr (joinPair (okN n3.digits 3) (okN n4.digits 4)) = true
           then pickLatest n3.date n4.date else none])).getD today := rfl
  rw [joinPair_truthy, joinPair_truthy, joinPair_truthy] at hdate
  have hatt : attachedDates mid3 eve3 mid4 eve4 n3 n4
      (combinedPairRun mid3 eve3 mid4 eve4 n3 n4 today) =
      (if (joinPair (okN mid3.digits 3) (okN mid4.digits 4)).isSome = true
         then filterSome [mid3.date, mid4.date] else []) ++
        (if (joinPair (okN eve3.digits 3) (okN eve4.digits 4)).isSome = true
           then filterSome [eve3.date, eve4.date] else []) ++
        (if (joinPair (okN n3.digits 3) (okN n4.digits 4)).isSome = true
           then filterSome [n3.date, n4.date] else []) := rfl
  rw [hatt, hdate]
  exact gatedMax_spec _ _ _ _ _ _ today
    (slotGate_spec _ mid3.date mid4.date)
    (slotGate_spec _ eve3.date eve4.date)
    (slotGate_spec _ n3.date n4.date)

/-- C6 counterexample, on the index.js aggregator (lines 356-365): the
midday slot has both digit halves but no date, the evening slot has
both halves dated 100, and "today" is 200.  The only date attached to a
combined slot is 100, yet the report's date is 200, because index.js
substitutes "today" for the date-less midday slot before taking the
maximum. -/
theorem C6_counterexample :
    (combinedPairIdx ⟨some "123", none⟩ ⟨some "111", some 100⟩
        ⟨some "4567", none⟩ ⟨some "2222", some 100⟩ 200) =
      { dateISO := 200, midday := some "123-4567",
        evening := some "111-2222" } ∧
      (200 : Nat) ≠ 100 := by
  decide

/-- Witness for C6 at concrete inputs: midday combined with half-dates
50 and 80; the report date is a member of the attached dates (namely
their maximum). -/
theorem C6_witness :
    (combinedPairRun ⟨some "123", some 50⟩ absentOut ⟨some "4567", some 80⟩
        absentOut absentOut absentOut 10).dateISO ∈
      attachedDates ⟨some "123", some 50⟩ absentOut ⟨some "4567", some 80⟩
        absentOut absentOut absentOut
        (combinedPairRun ⟨some "123", some 50⟩ absentOut
          ⟨some "4567", some 80⟩ absentOut absentOut absentOut 10) :=
  (C6_report_date ⟨some "123", some 50⟩ absentOut ⟨some "4567", some 80⟩
    absentOut absentOut absentOut 10).2.2 (by decide)

/-! ## Claim C7 -/

/-- C7 counterexample: the claim covers "slash/dash" tokens, but the
Date Resolver (`parseDateFromText`) accepts only slashes in its numeric
form — the dash token "9-10-25" parses to nothing, not to
2025-09-10. -/
theorem C7_counterexample :
    parseDateFromText 2025 "9-10-25" = none ∧
      (none : Option DateOut) ≠ some (DateOut.ymd 2025 9 10) := by
  decide

/-- C7, amended.  For numeric *slash* tokens `parseDateFromText` parses
the first number as month and the second as day, adds 2000 to a year
below 100, and substitutes the current year `y` when the year is
omitted; "9/10/25" resolves to 2025-09-10 and "Sep 10" with no year to
the current year.  Dash-separated tokens are parsed only by the
index.js scanner (`numDateIdx`), which conversely requires an explicit
year, so "9/10" yields nothing there. -/
theorem C7_date_parsing (y : Nat) :
    parseDateFromText y "9/10/25" = some (DateOut.ymd 2025 9 10) ∧
    parseDateFromText y "Sep 10" = some (DateOut.ymd y 9 10) ∧
    (100 ≤ y → parseDateFromText y "9/10" = some (DateOut.ymd y 9 10)) ∧
    parseDateFromText y "1/2/25" = some (DateOut.ymd 2025 1 2) ∧
    parseDateFromText y "1/2/2031" = some (DateOut.ymd 2031 1 2) ∧
    (∀ Y : Nat, 10 ≤ Y → Y < 100 →
      parseDateFromText y
          (String.mk ('9' :: '/' :: '1' :: '0' :: '/' :: twoDigits Y)) =
        some (DateOut.ymd (2000 + Y) 9 10)) ∧
    numDateIdx "9-10-25" = some (2025, 9, 10) ∧
    numDateIdx "9/10" = none := by
  refine ⟨rfl, rfl, ?_, rfl, rfl, ?_, rfl, rfl⟩
  · intro hy
    have h0 : parseDateFromText y "9/10" =
        some (DateOut.ymd (if y < 100 then 2000 + y else y) 9 10) := rfl
    rw [h0, if_neg (by omega)]
  · intro Y h1 h2
    interval_cases Y <;> rfl

/-- Witness for C7: the century rule at the concrete two-digit year
47. -/
theorem C7_witness :
    parseDateFromText 2025
        (String.mk ('9' :: '/' :: '1' :: '0' :: '/' :: twoDigits 47)) =
      some (DateOut.ymd (2000 + 47) 9 10) :=
  (C7_date_parsing 2025).2.2.2.2.2.1 47 (by decide) (by decide)

/-! ## Claim C8 -/

theorem litAt_eq_append :
    ∀ {pat t r : List Char}, litAt pat t = some r → t = pat ++ r := by
  intro pat
  induction pat with
  | nil => intro t r h; simp [litAt] at h; simp [h]
  | cons p ps ih =>
    intro t r h
    cases t with
    | nil => simp [litAt] at h
    | cons c cs =>
      by_cases hpc : p = c
      · subst hpc
        simp only [litAt, if_pos rfl] at h
        simp [ih h]
      · simp [litAt, hpc] at h

theorem litAt_self_append (pat post : List Char) :
    litAt pat (pat ++ post) = some post := by
  induction pat with
  | nil => rfl
  | cons p ps ih => simp [litAt, ih]

theorem containsLit_iff {pat t : List Char} :
    containsLit pat t = true ↔ ∃ pre post, t = pre ++ pat ++ post := by
  induction t with
  | nil =>
    simp only [containsLit]
    constructor
    · intro h
      obtain ⟨r, hr⟩ := Option.isSome_iff_exists.mp h
      have := litAt_eq_append hr
      exact ⟨[], r, this⟩
    · rintro ⟨pre, post, hpp⟩
      have hpre : pre = [] ∧ pat = [] ∧ post = [] := by
        rcases List.append_eq_nil.mp (List.append_eq_nil.mp hpp.symm).1
          with ⟨h1, h2⟩
        exact ⟨h1, h2, (List.append_eq_nil.mp hpp.symm).2⟩
      rw [hpre.2.1]
      simp [litAt]
  | cons c rest ih =>
    simp only [containsLit, Bool.or_eq_true]
    constructor
    · rintro (h | h)
      · obtain ⟨r, hr⟩ := Option.isSome_iff_exists.mp h
        exact ⟨[], r, litAt_eq_append hr⟩
      · obtain ⟨pre, post, hpp⟩ := ih.mp h
        exact ⟨c :: pre, post, by simp [hpp]⟩
    · rintro ⟨pre, post, hpp⟩
      cases pre with
      | nil =>
        left
        simp only [List.nil_append] at hpp
        rw [hpp, litAt_self_append]
        rfl
      | cons d pre' =>
        right
        simp only [List.cons_append, List.cons.injEq] at hpp
        exact ih.mpr ⟨pre', post, hpp.2⟩

theorem anyLit_single {pat t : List Char} :
    anyLitHere [pat] t = true ↔
      ∃ r, litAt pat t = some r ∧
        (r = [] ∨ ∃ c cs, r = c :: cs ∧ wordChar c = false) := by
  simp only [anyLitHere, List.any_cons, List.any_nil, Bool.or_false]
  cases h : litAt pat t with
  | none => simp
  | some r =>
    cases r with
    | nil => simp
    | cons c cs =>
      simp only [Option.some.injEq]
      constructor
      · intro hb
        exact ⟨c :: cs, rfl, Or.inr ⟨c, cs, rfl, by simpa using hb⟩⟩
      · rintro ⟨r0, hr0, hbd⟩
        subst hr0
        rcases hbd with h0 | ⟨c0, cs0, heq, hw⟩
        · cases h0
        · cases heq
          simpa using hw

theorem wbScan_sound :
    ∀ {pat t : List Char} {prevW : Bool},
      wordBoundaryScan pat prevW t = true →
      ∃ pre post, t = pre ++ pat ++ post ∧
        (pre = [] → prevW = false) ∧
        (∀ c, pre.getLast? = some c → wordChar c = false) ∧
        (∀ c, post.head? = some c → wordChar c = false) := by
  intro pat t
  induction t with
  | nil =>
    intro prevW h
    simp only [wordBoundaryScan, Bool.and_eq_true] at h
    obtain ⟨r, hr, hbd⟩ := anyLit_single.mp h.2
    refine ⟨[], r, litAt_eq_append hr, fun _ => by simpa using h.1, ?_, ?_⟩
    · intro c hc
      simp at hc
    · intro c hc
      rcases hbd with rfl | ⟨c0, cs0, rfl, hw⟩
      · simp at hc
      · simp at hc
        rw [← hc]
        exact hw
  | cons a rest ih =>
    intro prevW h
    simp only [wordBoundaryScan, Bool.or_eq_true, Bool.and_eq_true] at h
    rcases h with ⟨hpw, hhit⟩ | hrec
    · obtain ⟨r, hr, hbd⟩ := anyLit_single.mp hhit
      refine ⟨[], r, litAt_eq_append hr, fun _ => by simpa using hpw,
        ?_, ?_⟩
      · intro c hc
        simp at hc
      · intro c hc
        rcases hbd with rfl | ⟨c0, cs0, rfl, hw⟩
        · simp at hc
        · simp at hc
          rw [← hc]
          exact hw
    · obtain ⟨pre', post', hpp, hpre0, hlast, hhead⟩ := ih hrec
      refine ⟨a :: pre', post', by simp [hpp], ?_, ?_, hhead⟩
      · intro hcontra
        cases hcontra
      · intro c hc
        cases pre' with
        | nil =>
          simp at hc
          rw [← hc]
          exact hpre0 rfl
        | cons b pre2 =>
          rw [List.getLast?_cons_cons] at hc
          exact hlast c hc

theorem wbScan_contains {pat t : List Char}
    (h : wordBoundaryScan pat false t = true) :
    containsLit pat t = true := by
  obtain ⟨pre, post, hpp, _, _, _⟩ := wbScan_sound h
  exact containsLit_iff.mpr ⟨pre, post, hpp⟩

theorem containsMidday_day {low : List Char}
    (h : containsLit
      ('m' :: 'i' :: 'd' :: 'd' :: 'a' :: 'y' :: []) low = true) :
    containsLit ('d' :: 'a' :: 'y' :: []) low = true := by
  obtain ⟨pre, post, hpp⟩ := containsLit_iff.mp h
  refine containsLit_iff.mpr ⟨pre ++ ('m' :: 'i' :: 'd' :: []), post, ?_⟩
  rw [hpp]
  simp

/-- C8, amended.  The index.js label matcher (`\b label \b`, tested on
trimmed lowercased text) really is whole-word and case-insensitive:
a match implies an occurrence of the label flanked by non-word
characters, so a fragment with no occurrence of the label at all can
never satisfy it.  The `CT_LABEL_RE` matcher is case-insensitive but
substring-based, not whole-word; still, its alias sets stay mutually
exclusive — a fragment with no occurrence of "day" (hence no "Day",
"Daytime" or "Midday" word) satisfies neither a Day nor a Midday
request, and a fragment with no occurrence of "night" never satisfies a
Night request. -/
theorem C8_label_matching :
    (∀ (pat t : List Char) (prevW : Bool),
      wordBoundaryScan pat prevW t = true →
      ∃ pre post, t = pre ++ pat ++ post ∧
        (pre = [] → prevW = false) ∧
        (∀ c, pre.getLast? = some c → wordChar c = false) ∧
        (∀ c, post.head? = some c → wordChar c = false)) ∧
    (∀ pat t : List Char, containsLit pat t = false →
      wordBoundaryScan pat false t = false) ∧
    (∀ low : List Char,
      containsLit ('d' :: 'a' :: 'y' :: []) low = false →
      ctLabelTestL SlotLabel.Day low = false ∧
        ctLabelTestL SlotLabel.Midday low = false) ∧
    (∀ low : List Char,
      containsLit ('n' :: 'i' :: 'g' :: 'h' :: 't' :: []) low = false →
      ctLabelTestL SlotLabel.Night low = false) ∧
    (∀ s : String, indexLabelTest "Day" s = indexLabelTest "DAY" s ∧
      indexLabelTest "Night" s = indexLabelTest "NIGHT" s) := by
  refine ⟨fun pat t prevW h => wbScan_sound h, ?_, ?_, ?_, ?_⟩
  · intro pat t hnc
    by_cases hwb : wordBoundaryScan pat false t = true
    · rw [wbScan_contains hwb] at hnc
      cases hnc
    · simpa using hwb
  · intro low hday
    constructor
    · simpa [ctLabelTestL] using hday
    · simp only [ctLabelTestL, Bool.or_eq_false_iff]
      refine ⟨?_, hday⟩
      by_cases hmid : containsLit
          ('m' :: 'i' :: 'd' :: 'd' :: 'a' :: 'y' :: []) low = true
      · rw [containsMidday_day hmid] at hday
        cases hday
      · simpa using hmid
  · intro low hnight
    simpa [ctLabelTestL] using hnight
  · intro s
    exact ⟨rfl, rfl⟩

/-- C8 counterexample: the fragment "Sunday 123" contains no slot word
as a whole word, yet `CT_LABEL_RE.Day` matches it (the substring "day"
inside "Sunday"), so the Run-Server label matching is not whole-word;
the index.js whole-word matcher indeed rejects it. -/
theorem C8_counterexample :
    ctLabelTest SlotLabel.Day "Sunday 123" = true ∧
    wordBoundaryScan ('d' :: 'a' :: 'y' :: []) false
      ("Sunday 123".toList.map Char.toLower) = false ∧
    indexLabelTest "Day" "Sunday 123" = false := by
  decide

/-- Witness for C8: a fragment containing only "night" satisfies
neither a Day nor a Midday request under the CT matcher. -/
theorem C8_witness :
    ctLabelTestL SlotLabel.Day ("night 417".toList.map Char.toLower) =
        false ∧
      ctLabelTestL SlotLabel.Midday
        ("night 417".toList.map Char.toLower) = false :=
  C8_label_matching.2.2.1 ("night 417".toList.map Char.toLower) (by decide)

/-! ## Claim C9 -/

theorem filter_takeWhile_not (l : List Char) :
    ((l.takeWhile (fun x => !x.isDigit)).filter Char.isDigit) = [] := by
  induction l with
  | nil => rfl
  | cons c rest ih =>
    by_cases hc : c.isDigit = true
    · simp [List.takeWhile, hc]
    · simp only [List.takeWhile]
      rw [show (!c.isDigit) = true by simp [hc]]
      simp [List.filter, hc, ih]

theorem filter_dropWhile_not (l : List Char) :
    ((l.dropWhile (fun x => !x.isDigit)).filter Char.isDigit) =
      l.filter Char.isDigit := by
  induction l with
  | nil => rfl
  | cons c rest ih =>
    by_cases hc : c.isDigit = true
    · simp [List.dropWhile, hc]
    · simp only [List.dropWhile]
      rw [show (!c.isDigit) = true by simp [hc]]
      simp [List.filter, hc, ih]

theorem dropWhileHead {p : Char → Bool} {l : List Char} {c : Char}
    {cs : List Char} (h : l.dropWhile p = c :: cs) : p c = false := by
  induction l with
  | nil => simp [List.dropWhile] at h
  | cons a rest ih =>
    by_cases ha : p a = true
    · simp only [List.dropWhile, ha] at h
      exact ih h
    · have hfa : p a = false := by simpa using ha
      simp only [List.dropWhile, hfa] at h
      injection h with h1 _
      subst h1
      exact hfa

theorem looseFrom_ok :
    ∀ (n : Nat) (u : List Char),
      n ≤ (u.filter Char.isDigit).length →
      (n = 0 ∨ ∃ c v, u = c :: v ∧ c.isDigit = true) →
      ∃ w, looseFrom n u = some w ∧
        w.filter Char.isDigit = (u.filter Char.isDigit).take n := by
  intro n
  induction n with
  | zero =>
    intro u _ _
    exact ⟨[], rfl, by simp⟩
  | succ k ih =>
    intro u hlen hstart
    rcases hstart with h0 | ⟨c, v, rfl, hc⟩
    · cases h0
    · have hfil : (c :: v).filter Char.isDigit =
          c :: v.filter Char.isDigit := by simp [List.filter, hc]
      rw [hfil] at hlen
      simp only [List.length_cons, Nat.succ_le_succ_iff] at hlen
      have hlen2 : k ≤
          ((v.dropWhile (fun x => !x.isDigit)).filter Char.isDigit).length := by
        rw [filter_dropWhile_not]
        exact hlen
      have hstart2 : k = 0 ∨ ∃ d v2,
          v.dropWhile (fun x => !x.isDigit) = d :: v2 ∧ d.isDigit = true := by
        cases k with
        | zero => exact Or.inl rfl
        | succ k2 =>
          right
          cases hdw : v.dropWhile (fun x => !x.isDigit) with
          | nil =>
            rw [hdw] at hlen2
            simp at hlen2
          | cons d v2 =>
            refine ⟨d, v2, rfl, ?_⟩
            have := dropWhileHead hdw
            simpa using this
      have hstart3 : k = 0 ∨ ∃ d v2,
          v.dropWhile (fun x => !x.isDigit) = d :: v2 ∧ d.isDigit = true :=
        hstart2
      obtain ⟨w', hw', hfw'⟩ :=
        ih (v.dropWhile (fun x => !x.isDigit)) hlen2
          (by
            rcases hstart3 with h0 | ⟨d, v2, hdw, hd⟩
            · exact Or.inl h0
            · exact Or.inr ⟨d, v2, hdw, hd⟩)
      refine ⟨c :: (v.takeWhile (fun x => !x.isDigit) ++ w'), ?_, ?_⟩
      · simp only [looseFrom, hc, if_pos, hw', Option.map_some']
      · rw [hfil]
        simp only [List.take_succ_cons, List.filter, hc]
        rw [List.filter_append, filter_takeWhile_not, List.nil_append,
          hfw', filter_dropWhile_not]

theorem scanLoose_spec :
    ∀ (n : Nat) (u : List Char), n ≤ (u.filter Char.isDigit).length →
      ∃ w, scanLoose n u = some w ∧
        w.filter Char.isDigit = (u.filter Char.isDigit).take n := by
  intro n u
  induction u with
  | nil =>
    intro hlen
    simp at hlen
    subst hlen
    exact ⟨[], rfl, rfl⟩
  | cons c rest ih =>
    intro hlen
    by_cases hc : c.isDigit = true
    · obtain ⟨w, hw, hfw⟩ := looseFrom_ok n (c :: rest) hlen
        (by
          cases n with
          | zero => exact Or.inl rfl
          | succ k => exact Or.inr ⟨c, rest, rfl, hc⟩)
      refine ⟨w, ?_, hfw⟩
      simp only [scanLoose, hw]
    · have hfil : (c :: rest).filter Char.isDigit =
          rest.filter Char.isDigit := by simp [List.filter, hc]
      rw [hfil] at hlen
      cases n with
      | zero =>
        exact ⟨[], by simp [scanLoose, looseFrom], rfl⟩
      | succ k =>
        obtain ⟨w, hw, hfw⟩ := ih hlen
        refine ⟨w, ?_, by rw [hfil]; exact hfw⟩
        simp only [scanLoose, looseFrom, hc]
        rw [if_neg (by simp [hc])]
        exact hw

/-- C9, amended.  The textual strategy of Run-Server.bat lines 330-340
first strips currency amounts, clock times, and prize/payout/odds
phrasing (`cleanTextBlocks`, lines 307-314 — month-name date phrases
are NOT stripped in this revision), and then applies the two searches
in the opposite order to the claim: the filler-allowing
`(?:\d\D*){n}` pattern runs FIRST and its match is collapsed to its
first `n` digits, so whenever the cleaned text holds at least `n`
digit characters the result is simply the first `n` digits of the
cleaned text; the plain `\d{n}` search runs only if that fails. -/
theorem C9_textual_loose_first (t : String) (n : Nat)
    (h : n ≤ ((cleanTextBlocksRun t.toList).filter Char.isDigit).length) :
    pickNDigitsTextRun t n =
      some (String.mk
        (((cleanTextBlocksRun t.toList).filter Char.isDigit).take n)) := by
  obtain ⟨w, hw, hfw⟩ := scanLoose_spec n (cleanTextBlocksRun t.toList) h
  unfold pickNDigitsTextRun
  rw [hw]
  dsimp only
  rw [hfw, List.take_take, Nat.min_self]
  rw [if_pos (by simp only [List.length_take]; exact Nat.min_eq_left h)]

/-- C9 counterexample: on "Sep 10, 2025 results 456" with `n = 3`, the
claim's order — strip the month-name date phrase, then search for an
exact 3-digit token not adjacent to further digits — would produce
"456" (shown via `scanTight`, the lookaround search); the code instead
leaves the date in place and runs the filler-allowing pattern first,
collapsing "10, 2…" to "102". -/
theorem C9_counterexample :
    pickNDigitsTextRun "Sep 10, 2025 results 456" 3 = some "102" ∧
    scanTight 3 false
        (cleanTextBlocksRun ("Sep 10, 2025 results 456".toList)) =
      some ('4' :: '5' :: '6' :: []) ∧
    some ("102" : String) ≠ some ("456" : String) := by
  decide

/-- Witness for C9 at a concrete input with spread digits. -/
theorem C9_witness :
    pickNDigitsTextRun "abc 9 8 7 x" 3 =
      some (String.mk
        (((cleanTextBlocksRun ("abc 9 8 7 x".toList)).filter
          Char.isDigit).take 3)) :=
  C9_textual_loose_first "abc 9 8 7 x" 3 (by decide)

/-! ## Claim C10 -/

/-- C10: when several candidate dates are collected around a located
result (`dateCand` in index.js `extractByLabel`, lines 249-272), the
resolver `dateCand.sort((a,b) => a-b).pop()` returns the latest
(maximum) candidate — in particular not the first one in document
order whenever that is not the maximum. -/
theorem C10_latest_date (l : List Nat) (h : l ≠ []) :
    ∃ m, resolveDateMax l = some m ∧ m ∈ l ∧ ∀ d ∈ l, d ≤ m :=
  (resolveDateMax_spec l).2 h

/-- Witness for C10: candidates `[5, 9, 3]` (document order) resolve to
the maximum 9, not to the first candidate 5. -/
theorem C10_witness :
    (∃ m, resolveDateMax [5, 9, 3] = some m ∧ m ∈ [5, 9, 3] ∧
      ∀ d ∈ [5, 9, 3], d ≤ m) ∧
    resolveDateMax [5, 9, 3] ≠ some 5 :=
  ⟨C10_latest_date [5, 9, 3] (by decide), by decide⟩

end Beast
